import Mathlib

/-
Verification of the max-path repository: a weighted directed graph store
(src/Wdgraph.py) together with Kahn topological sorting and DAG longest-path
extraction (src/app.py).

Modelling conventions:
* node labels are strings (the application uses string task names plus the
  synthetic terminals "s" and "t");
* edge weights are rationals, standing for the Python floats (all reasoning
  here is exact arithmetic on finite values);
* Python exceptions are modelled with Except String carrying the message text
  of the raise site (the f-string interpolation of node names in the Python
  messages is dropped, only the message kind matters);
* Python dict and list state is modelled by association lists / lists with
  explicit indexing helpers.
-/

namespace MP

set_option allowUnsafeReducibility true

attribute [local semireducible] Rat.add

instance {ε α : Type} [DecidableEq ε] [DecidableEq α] : DecidableEq (Except ε α) := fun x y =>
  match x, y with
  | Except.ok a, Except.ok b =>
    if h : a = b then isTrue (by rw [h])
    else isFalse (by intro hc; cases hc; exact h rfl)
  | Except.ok _, Except.error _ => isFalse (by intro hc; cases hc)
  | Except.error _, Except.ok _ => isFalse (by intro hc; cases hc)
  | Except.error e, Except.error f =>
    if h : e = f then isTrue (by rw [h])
    else isFalse (by intro hc; cases hc; exact h rfl)

structure Wdgraph where
  len : Nat
  hashmap : List (String × Nat)
  directmap : List String
  adj_list : List (List (Nat × ℚ))
deriving DecidableEq

def emptyWdgraph : Wdgraph := ⟨0, [], [], []⟩

/-- Lookup in the association list modelling the Python dict self.hashmap.
Keys are unique in reachable states, so first-match lookup is the dict lookup. -/
def alookup : List (String × Nat) → String → Option Nat
  | [], _ => none
  | (k, n) :: rest, u => if k = u then some n else alookup rest u

/-- Indexing self.directmap; out-of-range access (Python IndexError) cannot
happen in well-formed states, it is defaulted to the empty string here. -/
def labAt : List String → Nat → String
  | [], _ => ""
  | u :: _, 0 => u
  | _ :: rest, n + 1 => labAt rest n

/-- Indexing self.adj_list; out-of-range defaults to the empty row. -/
def rowAt : List (List (Nat × ℚ)) → Nat → List (Nat × ℚ)
  | [], _ => []
  | r :: _, 0 => r
  | _ :: rest, n + 1 => rowAt rest n

/-- In-place update of the row at one index of self.adj_list. -/
def modifyRow : List (List (Nat × ℚ)) → Nat → (List (Nat × ℚ) → List (Nat × ℚ)) → List (List (Nat × ℚ))
  | [], _, _ => []
  | r :: rest, 0, f => f r :: rest
  | r :: rest, n + 1, f => r :: modifyRow rest n f

def row (g : Wdgraph) (n : Nat) : List (Nat × ℚ) := rowAt g.adj_list n

/-- Wdgraph.register_node: return the handle of u, registering it if unseen. -/
def register_node (g : Wdgraph) (u : String) : Nat × Wdgraph :=
  match alookup g.hashmap u with
  | some n => (n, g)
  | none =>
    (g.len, ⟨g.len + 1, g.hashmap ++ [(u, g.len)], g.directmap ++ [u], g.adj_list ++ [[]]⟩)

def unregMsg : String := "Trying to access unregistered node value"

def noEdgeMsg : String := "No edge exists between the nodes"

def cycleMsg : String := "Graph has a cycle"

/-- Wdgraph.map_value: resolve a label, raising on unregistered labels. -/
def map_value (g : Wdgraph) (u : String) : Except String Nat :=
  match alookup g.hashmap u with
  | some n => Except.ok n
  | none => Except.error unregMsg

/-- Inner loop of Wdgraph.raw_set_edge on one adjacency row: overwrite the
weight of the first pair with the given target in place, else append. -/
def rawSetRow : List (Nat × ℚ) → Nat → ℚ → List (Nat × ℚ)
  | [], n2, w => [(n2, w)]
  | (t, wt) :: rest, n2, w =>
    if t = n2 then (t, w) :: rest else (t, wt) :: rawSetRow rest n2 w

/-- Wdgraph.raw_set_edge. -/
def raw_set_edge (g : Wdgraph) (n1 n2 : Nat) (w : ℚ) : Wdgraph :=
  { g with adj_list := modifyRow g.adj_list n1 (fun r => rawSetRow r n2 w) }

/-- Wdgraph.set_edge: auto-register both endpoints, then write the edge. -/
def set_edge (g : Wdgraph) (u v : String) (w : ℚ) : Wdgraph :=
  let p1 := register_node g u
  let p2 := register_node p1.2 v
  raw_set_edge p2.2 p1.1 p2.1 w

/-- First pair with the given target in a row (the lookup loop of get_edge). -/
def findWeight : List (Nat × ℚ) → Nat → Option ℚ
  | [], _ => none
  | (t, w) :: rest, n2 => if t = n2 then some w else findWeight rest n2

/-- Wdgraph.get_edge. -/
def get_edge (g : Wdgraph) (u v : String) : Except String ℚ :=
  match map_value g u with
  | Except.error e => Except.error e
  | Except.ok n1 =>
    match map_value g v with
    | Except.error e => Except.error e
    | Except.ok n2 =>
      match findWeight (row g n1) n2 with
      | some w => Except.ok w
      | none => Except.error noEdgeMsg

/-- Wdgraph.all_edges: all (target, weight) pairs flattened across rows. -/
def all_edges (g : Wdgraph) : List (Nat × ℚ) := g.adj_list.flatten

/-- The to_remove scan of Wdgraph.remove_edge: keeps overwriting, so it ends
on the last pair of the row with the given target. -/
def lastMatch : List (Nat × ℚ) → Nat → Option (Nat × ℚ)
  | [], _ => none
  | (t, w) :: rest, n2 =>
    match lastMatch rest n2 with
    | some p => some p
    | none => if t = n2 then some (t, w) else none

/-- Python list.remove: delete the first element equal to the given one. -/
def removeFirstEq : List (Nat × ℚ) → (Nat × ℚ) → List (Nat × ℚ)
  | [], _ => []
  | p :: rest, q => if p = q then rest else p :: removeFirstEq rest q

/-- Wdgraph.remove_edge. -/
def remove_edge (g : Wdgraph) (u v : String) : Except String Wdgraph :=
  match map_value g u with
  | Except.error e => Except.error e
  | Except.ok n1 =>
    match map_value g v with
    | Except.error e => Except.error e
    | Except.ok n2 =>
      match lastMatch (row g n1) n2 with
      | some p =>
        Except.ok { g with adj_list := modifyRow g.adj_list n1 (fun r => removeFirstEq r p) }
      | none => Except.error noEdgeMsg

/-- Wdgraph.get_outdegree. -/
def get_outdegree (g : Wdgraph) (u : String) : Except String Nat :=
  match map_value g u with
  | Except.error e => Except.error e
  | Except.ok n => Except.ok (row g n).length

/-- Wdgraph.get_outneighbors: outgoing (label, weight) pairs of u. -/
def get_outneighbors (g : Wdgraph) (u : String) : Except String (List (String × ℚ)) :=
  match map_value g u with
  | Except.error e => Except.error e
  | Except.ok n => Except.ok ((row g n).map (fun tw => (labAt g.directmap tw.1, tw.2)))

/-- The enumerate scan of Wdgraph.get_inneighbors, with i the index of the
current row. -/
def innerScan (adj : List (List (Nat × ℚ))) (dm : List String) (n : Nat) (i : Nat) :
    List (String × ℚ) :=
  match adj with
  | [] => []
  | r :: rest =>
    r.filterMap (fun tw => if tw.1 = n then some (labAt dm i, tw.2) else none) ++
      innerScan rest dm n (i + 1)

/-- Wdgraph.get_inneighbors: incoming (label, weight) pairs of u, obtained by
scanning every adjacency row. -/
def get_inneighbors (g : Wdgraph) (u : String) : Except String (List (String × ℚ)) :=
  match map_value g u with
  | Except.error e => Except.error e
  | Except.ok n => Except.ok (innerScan g.adj_list g.directmap n 0)

/-- The labels marked as having an incoming edge by get_nodes_without_incoming. -/
def targetsLabels (adj : List (List (Nat × ℚ))) (dm : List String) : List String :=
  adj.flatten.map (fun tw => labAt dm tw.1)

/-- Wdgraph.get_nodes_without_incoming: labels of indegree zero.  The Python
function returns a set; it is modelled as the sublist of directmap (whose
entries are distinct in reachable states) of labels with no incoming edge. -/
def get_nodes_without_incoming (g : Wdgraph) : List String :=
  g.directmap.filter (fun l => decide (l ∉ targetsLabels g.adj_list g.directmap))

/-- Wdgraph.get_nodes. -/
def get_nodes (g : Wdgraph) : List String := g.directmap

/-- Wdgraph.copy: a full copy; as a value it is the same graph. -/
def copy (g : Wdgraph) : Wdgraph :=
  ⟨g.len, g.hashmap, g.directmap, g.adj_list⟩

def zeroDivMsg : String := "float division by zero"

/-- One index step of the inner loop of create_probability_graph.  Python
iterates over the live list while raw_set_edge overwrites weights in place;
the list length never changes (the read target is always present), so the
iteration is by index, re-reading the current element each step. -/
def probRowStep (total : ℚ) (r : List (Nat × ℚ)) (i : Nat) : List (Nat × ℚ) :=
  match r.get? i with
  | none => r
  | some tw => rawSetRow r tw.1 (tw.2 / total)

/-- The inner loop of create_probability_graph over one row. -/
def probRow (r0 : List (Nat × ℚ)) (total : ℚ) : List (Nat × ℚ) :=
  (List.range r0.length).foldl (probRowStep total) r0

/-- The source loop of create_probability_graph.  A row with edges whose
weights sum to zero raises ZeroDivisionError on its first division, leaving
the graph in the partially rescaled state reached so far; the pair returned
here is (state at exit, raised error if any). -/
def cpgAux : Wdgraph → List Nat → Wdgraph × Option String
  | g, [] => (g, none)
  | g, src :: rest =>
    let r := row g src
    let total := (r.map Prod.snd).sum
    if total = 0 ∧ r ≠ [] then (g, some zeroDivMsg)
    else cpgAux { g with adj_list := modifyRow g.adj_list src (fun rr => probRow rr total) } rest

/-- Wdgraph.create_probability_graph. -/
def create_probability_graph (g : Wdgraph) : Wdgraph × Option String :=
  cpgAux g (List.range g.adj_list.length)

/-! ## The DAG solver (src/app.py) -/

def fuelMsg : String := "loop bound exceeded"

/-- Number of edges currently stored; the measure that shrinks at every
removal inside the Kahn loop. -/
def totalEdges (g : Wdgraph) : Nat := (g.adj_list.map List.length).sum

/-- Inner loop of one Kahn iteration: for each captured outneighbor m of n,
delete the edge n -> m and, if m now has no inneighbors, add it to S.
S models the Python set by a duplicate-free list: pops take the head and adds
append if absent. -/
def kahnStep (n : String) : Wdgraph → List String → List (String × ℚ) →
    Except String (Wdgraph × List String)
  | G, S, [] => Except.ok (G, S)
  | G, S, (m, _) :: outs =>
    match remove_edge G n m with
    | Except.error e => Except.error e
    | Except.ok G1 =>
      match get_inneighbors G1 m with
      | Except.error e => Except.error e
      | Except.ok inns =>
        kahnStep n G1 (if inns = [] then (if m ∈ S then S else S ++ [m]) else S) outs

/-- The while loop of kahns_algorithm.  The Python loop has no fuel; the fuel
here is a loop counter that the caller sets to a proven upper bound on the
number of iterations (totalEdges + length of S + 1), so the fuel-exhausted
branch is unreachable (see the termination theorem). -/
def kahnLoopF : Nat → Wdgraph → List String → List String → Except String (List String)
  | 0, _, _, _ => Except.error fuelMsg
  | fuel + 1, G, S, L =>
    match S with
    | [] => if all_edges G = [] then Except.ok L else Except.error cycleMsg
    | n :: rest =>
      match get_outneighbors G n with
      | Except.error e => Except.error e
      | Except.ok outs =>
        match kahnStep n G rest outs with
        | Except.error e => Except.error e
        | Except.ok GS => kahnLoopF fuel GS.1 GS.2 (L ++ [n])

/-- kahns_algorithm: work on a copy, seed S with the indegree-zero labels,
then run the frontier loop; fail if edges remain at the end. -/
def kahns_algorithm (graph : Wdgraph) : Except String (List String) :=
  let G := copy graph
  let S := get_nodes_without_incoming G
  kahnLoopF (totalEdges G + S.length + 1) G S []

/-- The inner maximum of the distance pass: starting from 0, take each
inneighbor distance plus weight when it strictly exceeds the running value. -/
def distFold (dist : String → ℚ) (inns : List (String × ℚ)) : ℚ :=
  inns.foldl (fun md sw => if md < dist sw.1 + sw.2 then dist sw.1 + sw.2 else md) 0

/-- The distance pass of solve_max_path over the topologically sorted nodes.
The Python dict dist (initialized to 0 on every sorted node) is modelled as a
total function defaulting to 0; on every run in which the result is consumed,
the keys looked up are exactly the sorted nodes, so the totalization is not
observable. -/
def computeDist (G : Wdgraph) : List String → (String → ℚ) → Except String (String → ℚ)
  | [], dist => Except.ok dist
  | target :: rest, dist =>
    match get_inneighbors G target with
    | Except.error e => Except.error e
    | Except.ok inns =>
      computeDist G rest (fun x => if x = target then distFold dist inns else dist x)

/-- The backward argmax of the reconstruction loop: running best distance
(none standing for the float -inf start) and best node (none for Python None). -/
def reconBest (dist : String → ℚ) (inns : List (String × ℚ)) : Option ℚ × Option String :=
  inns.foldl
    (fun acc sw =>
      match acc.1 with
      | none => (some (dist sw.1), some sw.1)
      | some md => if md < dist sw.1 then (some (dist sw.1), some sw.1) else acc)
    (none, none)

/-- The backward reconstruction loop of solve_max_path.  When the argmax is
None (no inneighbors) the Python loop appends None, loops, and the next
get_inneighbors(None) raises the unregistered-node error; that error is
produced here directly.  The accumulator is kept in reversed order, so the
result is already the final reversed critical path.  The fuel is a loop
counter set by the caller to a proven bound, as in kahnLoopF. -/
def reconLoop (G : Wdgraph) (dist : String → ℚ) :
    Nat → String → List String → Except String (List String)
  | 0, _, _ => Except.error fuelMsg
  | fuel + 1, current, path =>
    if current = "s" then Except.ok path
    else
      match get_inneighbors G current with
      | Except.error e => Except.error e
      | Except.ok inns =>
        match (reconBest dist inns).2 with
        | none => Except.error unregMsg
        | some m => reconLoop G dist fuel m (m :: path)

/-- solve_max_path: topologically sort, compute the distance map, then walk
backward from "t" building the critical path; return (dist of "t", path). -/
def solve_max_path (G : Wdgraph) : Except String (ℚ × List String) :=
  match kahns_algorithm G with
  | Except.error e => Except.error e
  | Except.ok sorted_nodes =>
    match computeDist G sorted_nodes (fun _ => 0) with
    | Except.error e => Except.error e
    | Except.ok dist =>
      match reconLoop G dist (G.len + 2) "t" ["t"] with
      | Except.error e => Except.error e
      | Except.ok path => Except.ok (dist "t", path)

/-! ## Derived observation helpers used in the claim statements -/

/-- The distance value the solver computes at one node (runs the topological
sort and the distance pass of solve_max_path, then reads one entry). -/
def distAt (g : Wdgraph) (v : String) : Except String ℚ :=
  match kahns_algorithm g with
  | Except.error e => Except.error e
  | Except.ok sorted_nodes =>
    match computeDist g sorted_nodes (fun _ => 0) with
    | Except.error e => Except.error e
    | Except.ok dist => Except.ok (dist v)

/-- Total edge weight along a label path, read back through get_edge. -/
def pathWeight (g : Wdgraph) : List String → Except String ℚ
  | [] => Except.ok 0
  | [_] => Except.ok 0
  | u :: v :: rest =>
    match get_edge g u v with
    | Except.error e => Except.error e
    | Except.ok w =>
      match pathWeight g (v :: rest) with
      | Except.error e => Except.error e
      | Except.ok rw => Except.ok (w + rw)

/-! ## Concrete input graphs used in counterexamples and witnesses -/

/-- Tie graph for the reconstruction: s->b(2), s->a(2), b->t(1), a->t(5).
Both inneighbors of t have the maximal dist (2), dist of t is 7 via a, but the
backward walk maximizes dist alone and picks b first, returning path s,b,t. -/
def cg1 : Wdgraph :=
  set_edge (set_edge (set_edge (set_edge emptyWdgraph "s" "b" 2) "s" "a" 2) "b" "t" 1) "a" "t" 5

/-- Negative-weight graph: a single edge s->a of weight -5. -/
def cg4 : Wdgraph := set_edge emptyWdgraph "s" "a" (-5)

/-- Disconnected graph: s->a(1) and b->t(1); t is unreachable from s. -/
def cg5 : Wdgraph := set_edge (set_edge emptyWdgraph "s" "a" 1) "b" "t" 1

/-- Two-cycle graph: a->b(1), b->a(1). -/
def cgc : Wdgraph := set_edge (set_edge emptyWdgraph "a" "b" 1) "b" "a" 1

/-- The end-to-end scenario of the spec: s->A(2), s->B(5), B->D(14), D->t(0),
A->t(0); expected longest path s,B,D,t of length 19. -/
def cg8 : Wdgraph :=
  set_edge (set_edge (set_edge (set_edge (set_edge emptyWdgraph "s" "A" 2) "s" "B" 5)
    "B" "D" 14) "D" "t" 0) "A" "t" 0

/-! ## Specification-level definitions -/

/-- Edge g u v w: the graph stores an edge from label u to label v with
weight w (both labels resolved through the hashmap). -/
def Edge (g : Wdgraph) (u v : String) (w : ℚ) : Prop :=
  ∃ a b, alookup g.hashmap u = some a ∧ alookup g.hashmap v = some b ∧ (b, w) ∈ row g a

/-- The label pairs of all stored edges, in storage order. -/
def edgeScan : List (List (Nat × ℚ)) → List String → Nat → List (String × String)
  | [], _, _ => []
  | r :: rest, dm, i =>
    r.map (fun tw => (labAt dm i, labAt dm tw.1)) ++ edgeScan rest dm (i + 1)

def labelEdges (g : Wdgraph) : List (String × String) :=
  edgeScan g.adj_list g.directmap 0

/-- Nonempty directed walks over a list of label edges. -/
inductive EdgeSeq (E : List (String × String)) : String → String → Prop
  | single : ∀ {u v : String}, (u, v) ∈ E → EdgeSeq E u v
  | cons : ∀ {u w v : String}, (u, w) ∈ E → EdgeSeq E w v → EdgeSeq E u v

/-- The graph described by the edge list contains a directed cycle. -/
def HasCycle (E : List (String × String)) : Prop := ∃ u, EdgeSeq E u u

/-- u occurs at a strictly earlier position than v in the list L. -/
def Before (u v : String) (L : List String) : Prop :=
  ∃ i j : Nat, i < j ∧ L[i]? = some u ∧ L[j]? = some v

/-- The Graph Store operations of claim C7. -/
inductive GOp : Type where
  | regOp : String → GOp
  | setOp : String → String → ℚ → GOp
  | remOp : String → String → GOp
  | probOp : GOp
  | cpOp : GOp

/-- Apply one Graph Store operation to the state.  A failing remove_edge
raises, leaving the state unchanged; a failing create_probability_graph
raises out of its loop, leaving the partially rescaled state it reached. -/
def execOp (g : Wdgraph) : GOp → Wdgraph
  | GOp.regOp u => (register_node g u).2
  | GOp.setOp u v w => set_edge g u v w
  | GOp.remOp u v =>
    match remove_edge g u v with
    | Except.ok g2 => g2
    | Except.error _ => g
  | GOp.probOp => (create_probability_graph g).1
  | GOp.cpOp => copy g

/-- The state reached from the empty graph by a sequence of operations. -/
def runOps (ops : List GOp) : Wdgraph := ops.foldl execOp emptyWdgraph

/-! ## Well-formedness of reachable graph states -/

/-- Contents of the Python dict self.hashmap in a reachable state: the label
at position i of directmap maps to handle k + i (k is the position offset). -/
def idxPairs : List String → Nat → List (String × Nat)
  | [], _ => []
  | u :: rest, k => (u, k) :: idxPairs rest (k + 1)

/-- Every adjacency row stores handles below len, at most one entry per target. -/
def RowsOk (len : Nat) (adj : List (List (Nat × ℚ))) : Prop :=
  ∀ r ∈ adj, (∀ tw ∈ r, tw.1 < len) ∧ (r.map Prod.fst).Nodup

/-- Well-formedness invariant satisfied by every Wdgraph state the Python
class can reach: the two maps are inverse to each other in first-seen order,
labels are distinct, and rows are in range without duplicate targets. -/
def WF (g : Wdgraph) : Prop :=
  g.directmap.length = g.len ∧ g.adj_list.length = g.len ∧
  g.hashmap = idxPairs g.directmap 0 ∧ g.directmap.Nodup ∧ RowsOk g.len g.adj_list

instance (len : Nat) (adj : List (List (Nat × ℚ))) : Decidable (RowsOk len adj) := by
  unfold RowsOk; infer_instance

instance (g : Wdgraph) : Decidable (WF g) := by
  unfold WF; infer_instance

/-- Loop invariant of the Kahn frontier loop, tying the working copy G, the
frontier S and the emitted prefix L back to the input graph g0. -/
structure KInv (g0 G : Wdgraph) (S L : List String) : Prop where
  hm : G.hashmap = g0.hashmap
  dm : G.directmap = g0.directmap
  ln : G.len = g0.len
  wf : WF G
  sub : ∀ u v w, Edge G u v w → Edge g0 u v w
  rem : ∀ u v w, Edge g0 u v w → Edge G u v w ∨ u ∈ L
  tgt : ∀ u v w, Edge G u v w → v ∉ L ∧ v ∉ S
  zero : ∀ x, x ∈ g0.directmap → (∀ u w, ¬ Edge G u x w) → x ∈ L ∨ x ∈ S
  nd : (L ++ S).Nodup
  mem : ∀ x, x ∈ L ++ S → x ∈ g0.directmap
  out : ∀ k, k ∈ L → ∀ v w, ¬ Edge G k v w
  ord : ∀ u v w, Edge g0 u v w → v ∈ L → Before u v L

/-- What holds of the list returned by a successful Kahn run: it enumerates
the registered labels without repetition, and respects every edge. -/
def KFinal (g0 : Wdgraph) (L : List String) : Prop :=
  L.Nodup ∧ (∀ x, x ∈ L ↔ x ∈ g0.directmap) ∧
  (∀ u v, (u, v) ∈ labelEdges g0 → Before u v L)

/-! ## A heap model for the deep-copy claim

Python lists are mutable objects on a heap, and Wdgraph.copy builds new list
objects with deepcopy.  To state independence of the copy, adjacency rows are
stored in heap cells and a graph record holds references (cell indices)
instead of the rows themselves; every mutating method threads the heap
explicitly, so that an aliased (shallow) copy would be observably different
from the deep copy the source performs. -/

structure Heap where
  cells : List (List (Nat × ℚ))
deriving DecidableEq

structure PyGraph where
  len : Nat
  hashmap : List (String × Nat)
  directmap : List String
  adjRefs : List Nat
deriving DecidableEq

/-- Indexing self.adj_list now resolves the reference of the row object. -/
def refAt : List Nat → Nat → Nat
  | [], _ => 0
  | r :: _, 0 => r
  | _ :: rest, n + 1 => refAt rest n

/-- Read one row object from the heap. -/
def hread (h : Heap) (r : Nat) : List (Nat × ℚ) := rowAt h.cells r

/-- Overwrite one row object on the heap (in-place list mutation). -/
def hwrite (h : Heap) (r : Nat) (row2 : List (Nat × ℚ)) : Heap :=
  ⟨modifyRow h.cells r (fun _ => row2)⟩

/-- Allocate a fresh list object. -/
def halloc (h : Heap) (row2 : List (Nat × ℚ)) : Heap × Nat :=
  (⟨h.cells ++ [row2]⟩, h.cells.length)

/-- Wdgraph.register_node on the heap model: a new node gets a fresh empty
row object appended to self.adj_list. -/
def hregister_node (h : Heap) (g : PyGraph) (u : String) : Heap × PyGraph × Nat :=
  match alookup g.hashmap u with
  | some n => (h, g, n)
  | none =>
    let hr := halloc h []
    (hr.1,
     ⟨g.len + 1, g.hashmap ++ [(u, g.len)], g.directmap ++ [u], g.adjRefs ++ [hr.2]⟩,
     g.len)

/-- Wdgraph.raw_set_edge on the heap model: mutate the row object of n1. -/
def hraw_set_edge (h : Heap) (g : PyGraph) (n1 n2 : Nat) (w : ℚ) : Heap :=
  hwrite h (refAt g.adjRefs n1) (rawSetRow (hread h (refAt g.adjRefs n1)) n2 w)

/-- Wdgraph.set_edge on the heap model: register u, register v in the
resulting state, then mutate the row object of u. -/
def hset_edge (h : Heap) (g : PyGraph) (u v : String) (w : ℚ) : Heap × PyGraph :=
  (hraw_set_edge (hregister_node (hregister_node h g u).1 (hregister_node h g u).2.1 v).1
    (hregister_node (hregister_node h g u).1 (hregister_node h g u).2.1 v).2.1
    (hregister_node h g u).2.2
    (hregister_node (hregister_node h g u).1 (hregister_node h g u).2.1 v).2.2 w,
   (hregister_node (hregister_node h g u).1 (hregister_node h g u).2.1 v).2.1)

/-- Wdgraph.remove_edge on the heap model. -/
def hremove_edge (h : Heap) (g : PyGraph) (u v : String) :
    Except String (Heap × PyGraph) :=
  match alookup g.hashmap u with
  | none => Except.error unregMsg
  | some n1 =>
    match alookup g.hashmap v with
    | none => Except.error unregMsg
    | some n2 =>
      match lastMatch (hread h (refAt g.adjRefs n1)) n2 with
      | some p =>
        Except.ok
          (hwrite h (refAt g.adjRefs n1) (removeFirstEq (hread h (refAt g.adjRefs n1)) p), g)
      | none => Except.error noEdgeMsg

/-- Wdgraph.copy on the heap model: deepcopy allocates a fresh row object for
every node; handles, labels and lengths are carried over unchanged. -/
def hcopy (h : Heap) (g : PyGraph) : Heap × PyGraph :=
  (⟨h.cells ++ g.adjRefs.map (fun r => hread h r)⟩,
   ⟨g.len, g.hashmap, g.directmap,
    (List.range g.adjRefs.length).map (fun i => h.cells.length + i)⟩)

/-- Wdgraph.get_edge on the heap model. -/
def hget_edge (h : Heap) (g : PyGraph) (u v : String) : Except String ℚ :=
  match alookup g.hashmap u with
  | none => Except.error unregMsg
  | some n1 =>
    match alookup g.hashmap v with
    | none => Except.error unregMsg
    | some n2 =>
      match findWeight (hread h (refAt g.adjRefs n1)) n2 with
      | some w => Except.ok w
      | none => Except.error noEdgeMsg

/-- Wdgraph.get_outdegree on the heap model. -/
def hget_outdegree (h : Heap) (g : PyGraph) (u : String) : Except String Nat :=
  match alookup g.hashmap u with
  | none => Except.error unregMsg
  | some n => Except.ok (hread h (refAt g.adjRefs n)).length

/-- len(graph) on the heap model (reads no heap cell). -/
def hnodeCount (_h : Heap) (g : PyGraph) : Nat := g.len

/-- Wdgraph.get_inneighbors on the heap model. -/
def hget_inneighbors (h : Heap) (g : PyGraph) (u : String) :
    Except String (List (String × ℚ)) :=
  match alookup g.hashmap u with
  | none => Except.error unregMsg
  | some n =>
    Except.ok (innerScan (g.adjRefs.map (fun r => hread h r)) g.directmap n 0)

/-- The mutations of claim C8. -/
inductive HOp : Type where
  | hsetOp : String → String → ℚ → HOp
  | hremOp : String → String → HOp
  | hregOp : String → HOp

/-- Run one mutation; a raising remove_edge leaves the state unchanged. -/
def execHOp (hg : Heap × PyGraph) : HOp → Heap × PyGraph
  | HOp.hsetOp u v w => hset_edge hg.1 hg.2 u v w
  | HOp.hremOp u v =>
    match hremove_edge hg.1 hg.2 u v with
    | Except.ok hg2 => hg2
    | Except.error _ => hg
  | HOp.hregOp u =>
    let r := hregister_node hg.1 hg.2 u
    (r.1, r.2.1)

/-- A sequence of mutations on one graph, threading the shared heap. -/
def runHOps (hg : Heap × PyGraph) (ops : List HOp) : Heap × PyGraph :=
  ops.foldl execHOp hg

/-- Reference discipline of reachable heap states: one row reference per
node, handles below len, references into the allocated heap. -/
def HGood (h : Heap) (g : PyGraph) : Prop :=
  g.adjRefs.length = g.len ∧ (∀ p ∈ g.hashmap, p.2 < g.len) ∧
  (∀ r ∈ g.adjRefs, r < h.cells.length)

instance (h : Heap) (g : PyGraph) : Decidable (HGood h g) := by
  unfold HGood
  infer_instance

lemma alookup_idxPairs_none {l : List String} {k : Nat} {u : String} :
    alookup (idxPairs l k) u = none ↔ u ∉ l := by
  induction l generalizing k with
  | nil => simp [idxPairs, alookup]
  | cons v rest ih =>
    by_cases h : v = u
    · subst h; simp [idxPairs, alookup]
    · simp only [idxPairs, alookup, if_neg h, List.mem_cons, ih]
      constructor
      · intro hnm hc
        rcases hc with hc | hc
        · exact h hc.symm
        · exact hnm hc
      · intro hnm
        exact fun hc => hnm (Or.inr hc)

lemma alookup_idxPairs_some {l : List String} (hnd : l.Nodup) {k n : Nat} {u : String} :
    alookup (idxPairs l k) u = some n ↔ ∃ i, l[i]? = some u ∧ n = k + i := by
  induction l generalizing k with
  | nil => simp [idxPairs, alookup]
  | cons v rest ih =>
    rcases List.nodup_cons.mp hnd with ⟨hv, hrest⟩
    by_cases h : v = u
    · have hred : alookup (idxPairs (v :: rest) k) u = some k := by
        simp [idxPairs, alookup, h]
      rw [hred]
      constructor
      · intro he
        injection he with he2
        exact ⟨0, by simp [h], by omega⟩
      · rintro ⟨i, hi, hni⟩
        cases i with
        | zero =>
          exact congrArg some (by omega)
        | succ j =>
          simp only [List.getElem?_cons_succ] at hi
          rw [h] at hv
          exact absurd (List.mem_iff_getElem?.mpr ⟨j, hi⟩) hv
    · simp only [idxPairs, alookup, if_neg h, ih hrest]
      constructor
      · rintro ⟨i, hi, hni⟩
        exact ⟨i + 1, by simpa using hi, by omega⟩
      · rintro ⟨i, hi, hni⟩
        cases i with
        | zero =>
          simp only [List.getElem?_cons_zero, Option.some_inj] at hi
          exact absurd hi h
        | succ j =>
          simp only [List.getElem?_cons_succ] at hi
          exact ⟨j, hi, by omega⟩

lemma wf_lookup_iff {g : Wdgraph} (hwf : WF g) {u : String} {n : Nat} :
    alookup g.hashmap u = some n ↔ g.directmap[n]? = some u := by
  rcases hwf with ⟨_, _, hh, hnd, _⟩
  rw [hh, alookup_idxPairs_some hnd]
  constructor
  · rintro ⟨i, hi, hni⟩
    exact hni ▸ (by simpa using hi)
  · intro hn
    exact ⟨n, hn, by omega⟩

lemma wf_lookup_none {g : Wdgraph} (hwf : WF g) {u : String} :
    alookup g.hashmap u = none ↔ u ∉ g.directmap := by
  rcases hwf with ⟨_, _, hh, _, _⟩
  rw [hh, alookup_idxPairs_none]

lemma wf_lookup_lt {g : Wdgraph} (hwf : WF g) {u : String} {n : Nat}
    (h : alookup g.hashmap u = some n) : n < g.len := by
  have := (wf_lookup_iff hwf).mp h
  rcases List.getElem?_eq_some_iff.mp this with ⟨hlt, _⟩
  have hlen := hwf.1
  omega

lemma wf_lookup_mem {g : Wdgraph} (hwf : WF g) {u : String} {n : Nat}
    (h : alookup g.hashmap u = some n) : u ∈ g.directmap := by
  have := (wf_lookup_iff hwf).mp h
  exact List.mem_iff_getElem?.mpr ⟨n, this⟩

lemma wf_mem_lookup {g : Wdgraph} (hwf : WF g) {u : String} (h : u ∈ g.directmap) :
    ∃ n, alookup g.hashmap u = some n := by
  cases he : alookup g.hashmap u with
  | none => exact absurd ((wf_lookup_none hwf).mp he) (by simpa using h)
  | some n => exact ⟨n, rfl⟩

/-! ## Indexing helper lemmas -/

lemma labAt_eq_getElem {l : List String} {i : Nat} (h : i < l.length) : labAt l i = l[i] := by
  induction l generalizing i with
  | nil => simp at h
  | cons v rest ih =>
    cases i with
    | zero => rfl
    | succ j => simpa [labAt] using ih (by simpa using h)

lemma rowAt_eq_getElem {adj : List (List (Nat × ℚ))} {i : Nat} (h : i < adj.length) :
    rowAt adj i = adj[i] := by
  induction adj generalizing i with
  | nil => simp at h
  | cons r rest ih =>
    cases i with
    | zero => rfl
    | succ j => simpa [rowAt] using ih (by simpa using h)

lemma rowAt_oob {adj : List (List (Nat × ℚ))} {i : Nat} (h : adj.length ≤ i) :
    rowAt adj i = [] := by
  induction adj generalizing i with
  | nil => cases i <;> rfl
  | cons r rest ih =>
    cases i with
    | zero => simp at h
    | succ j => simpa [rowAt] using ih (by simpa using h)

lemma rowAt_mem {adj : List (List (Nat × ℚ))} {i : Nat} (h : i < adj.length) :
    rowAt adj i ∈ adj := by
  rw [rowAt_eq_getElem h]; exact List.getElem_mem h

lemma modifyRow_length (adj : List (List (Nat × ℚ))) (i : Nat)
    (f : List (Nat × ℚ) → List (Nat × ℚ)) : (modifyRow adj i f).length = adj.length := by
  induction adj generalizing i with
  | nil => rfl
  | cons r rest ih =>
    cases i with
    | zero => rfl
    | succ j => simpa [modifyRow] using ih j

lemma rowAt_modifyRow_self {adj : List (List (Nat × ℚ))} {i : Nat}
    (f : List (Nat × ℚ) → List (Nat × ℚ)) (h : i < adj.length) :
    rowAt (modifyRow adj i f) i = f (rowAt adj i) := by
  induction adj generalizing i with
  | nil => simp at h
  | cons r rest ih =>
    cases i with
    | zero => rfl
    | succ j => simpa [modifyRow, rowAt] using ih (by simpa using h)

lemma rowAt_modifyRow_ne {adj : List (List (Nat × ℚ))} {i j : Nat}
    (f : List (Nat × ℚ) → List (Nat × ℚ)) (h : i ≠ j) :
    rowAt (modifyRow adj i f) j = rowAt adj j := by
  induction adj generalizing i j with
  | nil => cases j <;> rfl
  | cons r rest ih =>
    cases i with
    | zero =>
      cases j with
      | zero => exact absurd rfl h
      | succ j2 => rfl
    | succ i2 =>
      cases j with
      | zero => rfl
      | succ j2 => simpa [modifyRow, rowAt] using ih (by omega)

lemma mem_modifyRow {adj : List (List (Nat × ℚ))} {i : Nat}
    {f : List (Nat × ℚ) → List (Nat × ℚ)} {r : List (Nat × ℚ)}
    (h : r ∈ modifyRow adj i f) : r ∈ adj ∨ ∃ r0 ∈ adj, r = f r0 := by
  induction adj generalizing i with
  | nil => simp [modifyRow] at h
  | cons r0 rest ih =>
    cases i with
    | zero =>
      rcases List.mem_cons.mp h with h | h
      · exact Or.inr ⟨r0, by simp, h⟩
      · exact Or.inl (List.mem_cons.mpr (Or.inr h))
    | succ j =>
      rcases List.mem_cons.mp h with h | h
      · exact Or.inl (by simp [h])
      · rcases ih h with h2 | ⟨r1, hr1, hr2⟩
        · exact Or.inl (List.mem_cons.mpr (Or.inr h2))
        · exact Or.inr ⟨r1, List.mem_cons.mpr (Or.inr hr1), hr2⟩

/-! ## Row operation lemmas -/

lemma nodup_fst_cons {p : Nat × ℚ} {rest : List (Nat × ℚ)}
    (hnd : ((p :: rest).map Prod.fst).Nodup) :
    p.1 ∉ rest.map Prod.fst ∧ (rest.map Prod.fst).Nodup := by
  rw [List.map_cons] at hnd
  exact List.nodup_cons.mp hnd

lemma nodup_fst_unique {r : List (Nat × ℚ)} (hnd : (r.map Prod.fst).Nodup) {n : Nat}
    {w1 w2 : ℚ} (h1 : (n, w1) ∈ r) (h2 : (n, w2) ∈ r) : w1 = w2 := by
  induction r with
  | nil => simp at h1
  | cons p rest ih =>
    rcases nodup_fst_cons hnd with ⟨hp, hrest⟩
    rcases List.mem_cons.mp h1 with h1 | h1 <;> rcases List.mem_cons.mp h2 with h2 | h2
    · rw [← h1] at h2
      exact ((Prod.mk.injEq _ _ _ _).mp h2).2.symm
    · rw [← h1] at hp
      exact absurd (List.mem_map_of_mem Prod.fst h2) hp
    · rw [← h2] at hp
      exact absurd (List.mem_map_of_mem Prod.fst h1) hp
    · exact ih hrest h1 h2

lemma findWeight_none {r : List (Nat × ℚ)} {n : Nat} :
    findWeight r n = none ↔ ∀ w, (n, w) ∉ r := by
  induction r with
  | nil => simp [findWeight]
  | cons p rest ih =>
    rcases p with ⟨t, wt⟩
    by_cases h : t = n
    · subst h
      simp only [findWeight, if_pos rfl]
      constructor
      · intro he; cases he
      · intro hn
        exact absurd (by simp : (t, wt) ∈ (t, wt) :: rest) (hn wt)
    · simp only [findWeight, if_neg h, ih, List.mem_cons]
      constructor
      · intro hn w hc
        rcases hc with hc | hc
        · exact h (congrArg Prod.fst hc).symm
        · exact hn w hc
      · intro hn w hc
        exact hn w (Or.inr hc)

lemma findWeight_some {r : List (Nat × ℚ)} (hnd : (r.map Prod.fst).Nodup) {n : Nat} {w : ℚ} :
    findWeight r n = some w ↔ (n, w) ∈ r := by
  induction r with
  | nil => simp [findWeight]
  | cons p rest ih =>
    rcases p with ⟨t, wt⟩
    rcases nodup_fst_cons hnd with ⟨hp, hrest⟩
    by_cases h : t = n
    · subst h
      have hred : findWeight ((t, wt) :: rest) t = some wt := by
        simp [findWeight]
      rw [hred]
      constructor
      · intro he
        injection he with he2
        exact List.mem_cons.mpr (Or.inl (by rw [← he2]))
      · intro he
        rcases List.mem_cons.mp he with he | he
        · exact congrArg some ((Prod.mk.injEq _ _ _ _).mp he).2.symm
        · exact absurd (List.mem_map_of_mem Prod.fst he) hp
    · simp only [findWeight, if_neg h, ih hrest, List.mem_cons]
      constructor
      · intro he; exact Or.inr he
      · intro he
        rcases he with he | he
        · exact absurd (congrArg Prod.fst he).symm h
        · exact he

lemma lastMatch_none {r : List (Nat × ℚ)} {n : Nat} :
    lastMatch r n = none ↔ ∀ w, (n, w) ∉ r := by
  induction r with
  | nil => simp [lastMatch]
  | cons p rest ih =>
    rcases p with ⟨t, wt⟩
    simp only [lastMatch]
    cases hrec : lastMatch rest n with
    | some q =>
      simp only [List.mem_cons]
      constructor
      · intro he; cases he
      · intro hn
        have : ∀ w, (n, w) ∉ rest := fun w hc => hn w (Or.inr hc)
        rw [ih.mpr this] at hrec
        cases hrec
    | none =>
      have hrest := ih.mp hrec
      by_cases h : t = n
      · subst h
        simp only [if_pos rfl, List.mem_cons]
        constructor
        · intro he; cases he
        · intro hn
          exact absurd (hn wt (Or.inl rfl)) (fun hc => hc)
      · simp only [if_neg h, List.mem_cons]
        constructor
        · intro _ w hc
          rcases hc with hc | hc
          · exact h (congrArg Prod.fst hc).symm
          · exact hrest w hc
        · intro _; trivial

lemma lastMatch_some_mem {r : List (Nat × ℚ)} {n : Nat} {p : Nat × ℚ}
    (h : lastMatch r n = some p) : p ∈ r ∧ p.1 = n := by
  induction r with
  | nil => cases h
  | cons q rest ih =>
    rcases q with ⟨t, wt⟩
    simp only [lastMatch] at h
    cases hrec : lastMatch rest n with
    | some p2 =>
      rw [hrec] at h
      injection h with h2
      rcases ih (h2 ▸ hrec) with ⟨hm, hf⟩
      exact ⟨List.mem_cons.mpr (Or.inr hm), hf⟩
    | none =>
      rw [hrec] at h
      by_cases ht : t = n
      · rw [if_pos ht] at h
        injection h with h2
        exact ⟨List.mem_cons.mpr (Or.inl h2.symm), by rw [← h2]; exact ht⟩
      · rw [if_neg ht] at h
        cases h

lemma removeFirstEq_sublist (r : List (Nat × ℚ)) (p : Nat × ℚ) :
    (removeFirstEq r p).Sublist r := by
  induction r with
  | nil => simp [removeFirstEq]
  | cons q rest ih =>
    by_cases h : q = p
    · simp only [removeFirstEq, if_pos h]
      exact List.sublist_cons_self q rest
    · simp only [removeFirstEq, if_neg h]
      exact List.Sublist.cons₂ q ih

lemma removeFirstEq_length {r : List (Nat × ℚ)} {p : Nat × ℚ} (h : p ∈ r) :
    (removeFirstEq r p).length + 1 = r.length := by
  induction r with
  | nil => simp at h
  | cons q rest ih =>
    by_cases hq : q = p
    · simp [removeFirstEq, hq]
    · have hp : p ∈ rest := by
        rcases List.mem_cons.mp h with hc | hc
        · exact absurd hc.symm hq
        · exact hc
      simpa [removeFirstEq, hq] using ih hp

lemma mem_removeFirstEq {r : List (Nat × ℚ)} {p q : Nat × ℚ} :
    q ∈ removeFirstEq r p → q ∈ r :=
  fun h => List.Sublist.mem h (removeFirstEq_sublist r p)

lemma mem_removeFirstEq_of_ne {r : List (Nat × ℚ)} {p q : Nat × ℚ} (hne : q ≠ p)
    (h : q ∈ r) : q ∈ removeFirstEq r p := by
  induction r with
  | nil => simp at h
  | cons x rest ih =>
    by_cases hx : x = p
    · rcases List.mem_cons.mp h with hc | hc
      · exact absurd (hc ▸ hx) hne
      · simpa [removeFirstEq, hx] using hc
    · rcases List.mem_cons.mp h with hc | hc
      · simp [removeFirstEq, hx, hc]
      · simp [removeFirstEq, hx, ih hc]

lemma not_mem_removeFirstEq_self {r : List (Nat × ℚ)} {p : Nat × ℚ}
    (hnd : (r.map Prod.fst).Nodup) : p ∉ removeFirstEq r p := by
  induction r with
  | nil => simp [removeFirstEq]
  | cons x rest ih =>
    rcases nodup_fst_cons hnd with ⟨hx, hrest⟩
    by_cases hxp : x = p
    · subst hxp
      simp only [removeFirstEq, if_pos rfl]
      intro hc
      exact hx (List.mem_map_of_mem Prod.fst hc)
    · simp only [removeFirstEq, if_neg hxp, List.mem_cons]
      intro hc
      rcases hc with hc | hc
      · exact hxp hc.symm
      · exact ih hrest hc

lemma rawSetRow_map_fst_present {r : List (Nat × ℚ)} {n : Nat} (w : ℚ)
    (h : n ∈ r.map Prod.fst) : (rawSetRow r n w).map Prod.fst = r.map Prod.fst := by
  induction r with
  | nil => simp at h
  | cons p rest ih =>
    rcases p with ⟨t, wt⟩
    by_cases ht : t = n
    · simp [rawSetRow, ht]
    · have : n ∈ rest.map Prod.fst := by
        rcases List.mem_map.mp h with ⟨q, hq, hfq⟩
        rcases List.mem_cons.mp hq with hc | hc
        · exact absurd (by rw [hc] at hfq; exact hfq) ht
        · exact List.mem_map.mpr ⟨q, hc, hfq⟩
      simp [rawSetRow, ht, ih this]

lemma rawSetRow_map_fst_absent {r : List (Nat × ℚ)} {n : Nat} (w : ℚ)
    (h : n ∉ r.map Prod.fst) : (rawSetRow r n w).map Prod.fst = r.map Prod.fst ++ [n] := by
  induction r with
  | nil => simp [rawSetRow]
  | cons p rest ih =>
    rcases p with ⟨t, wt⟩
    have ht : t ≠ n := by
      intro hc
      exact h (by simp [hc])
    have hrest : n ∉ rest.map Prod.fst := fun hc => h (by simp [hc])
    simp [rawSetRow, ht, ih hrest]

lemma rawSetRow_length_present {r : List (Nat × ℚ)} {n : Nat} (w : ℚ)
    (h : n ∈ r.map Prod.fst) : (rawSetRow r n w).length = r.length := by
  have := rawSetRow_map_fst_present w h
  have h1 : ((rawSetRow r n w).map Prod.fst).length = (r.map Prod.fst).length := by rw [this]
  simpa using h1

lemma mem_rawSetRow {r : List (Nat × ℚ)} (hnd : (r.map Prod.fst).Nodup) {n : Nat} {w : ℚ}
    {b : Nat} {w2 : ℚ} :
    (b, w2) ∈ rawSetRow r n w ↔ (b = n ∧ w2 = w) ∨ ((b, w2) ∈ r ∧ b ≠ n) := by
  induction r with
  | nil =>
    simp only [rawSetRow, List.mem_singleton, List.not_mem_nil, false_and, or_false,
      Prod.mk.injEq]
  | cons p rest ih =>
    rcases p with ⟨t, wt⟩
    rcases nodup_fst_cons hnd with ⟨hp, hrest⟩
    by_cases ht : t = n
    · subst ht
      have hred : rawSetRow ((t, wt) :: rest) t w = (t, w) :: rest := by
        simp [rawSetRow]
      rw [hred]
      constructor
      · intro hc
        rcases List.mem_cons.mp hc with hc | hc
        · exact Or.inl ⟨((Prod.mk.injEq _ _ _ _).mp hc).1, ((Prod.mk.injEq _ _ _ _).mp hc).2⟩
        · refine Or.inr ⟨List.mem_cons.mpr (Or.inr hc), ?_⟩
          intro hb
          rw [hb] at hc
          exact hp (List.mem_map.mpr ⟨(t, w2), hc, rfl⟩)
      · intro hc
        rcases hc with ⟨hb, hw⟩ | ⟨hc, hb⟩
        · exact List.mem_cons.mpr (Or.inl (by rw [hb, hw]))
        · rcases List.mem_cons.mp hc with hc | hc
          · exact absurd ((Prod.mk.injEq _ _ _ _).mp hc).1 hb
          · exact List.mem_cons.mpr (Or.inr hc)
    · have hred : rawSetRow ((t, wt) :: rest) n w = (t, wt) :: rawSetRow rest n w := by
        simp [rawSetRow, ht]
      rw [hred]
      constructor
      · intro hc
        rcases List.mem_cons.mp hc with hc | hc
        · refine Or.inr ⟨List.mem_cons.mpr (Or.inl hc), ?_⟩
          intro hb
          rw [hb] at hc
          exact ht ((Prod.mk.injEq _ _ _ _).mp hc).1.symm
        · rcases (ih hrest).mp hc with hc | hc
          · exact Or.inl hc
          · exact Or.inr ⟨List.mem_cons.mpr (Or.inr hc.1), hc.2⟩
      · intro hc
        rcases hc with ⟨hb, hw⟩ | ⟨hc, hb⟩
        · exact List.mem_cons.mpr (Or.inr ((ih hrest).mpr (Or.inl ⟨hb, hw⟩)))
        · rcases List.mem_cons.mp hc with hc | hc
          · exact List.mem_cons.mpr (Or.inl hc)
          · exact List.mem_cons.mpr (Or.inr ((ih hrest).mpr (Or.inr ⟨hc, hb⟩)))

lemma rawSetRow_nodup {r : List (Nat × ℚ)} (hnd : (r.map Prod.fst).Nodup) (n : Nat) (w : ℚ) :
    ((rawSetRow r n w).map Prod.fst).Nodup := by
  by_cases h : n ∈ r.map Prod.fst
  · rw [rawSetRow_map_fst_present w h]; exact hnd
  · rw [rawSetRow_map_fst_absent w h]
    refine List.Nodup.append hnd (List.nodup_singleton n) ?_
    intro a ha hb
    rw [List.mem_singleton] at hb
    rw [hb] at ha
    exact h ha

lemma rawSetRow_targets_lt {r : List (Nat × ℚ)} {len : Nat}
    (hr : ∀ tw ∈ r, tw.1 < len) {n : Nat} (hn : n < len) (w : ℚ) :
    ∀ tw ∈ rawSetRow r n w, tw.1 < len := by
  induction r with
  | nil =>
    intro tw htw
    simp only [rawSetRow, List.mem_singleton] at htw
    rw [htw]; exact hn
  | cons p rest ih =>
    rcases p with ⟨t, wt⟩
    by_cases ht : t = n
    · intro tw htw
      simp only [rawSetRow, if_pos ht, List.mem_cons] at htw
      rcases htw with htw | htw
      · rw [htw]; exact hr (t, wt) (by simp)
      · exact hr tw (List.mem_cons.mpr (Or.inr htw))
    · intro tw htw
      simp only [rawSetRow, if_neg ht, List.mem_cons] at htw
      rcases htw with htw | htw
      · rw [htw]; exact hr (t, wt) (by simp)
      · exact ih (fun q hq => hr q (List.mem_cons.mpr (Or.inr hq))) tw htw

/-! ## The label-level edge relation -/

lemma wf_row_nodup {g : Wdgraph} (hwf : WF g) (a : Nat) : ((row g a).map Prod.fst).Nodup := by
  by_cases h : a < g.adj_list.length
  · exact (hwf.2.2.2.2 (rowAt g.adj_list a) (rowAt_mem h)).2
  · rw [row, rowAt_oob (by omega)]
    simp

lemma wf_row_targets {g : Wdgraph} (hwf : WF g) {a : Nat} {tw : Nat × ℚ}
    (h : tw ∈ row g a) : tw.1 < g.len := by
  by_cases hb : a < g.adj_list.length
  · exact (hwf.2.2.2.2 (rowAt g.adj_list a) (rowAt_mem hb)).1 tw h
  · rw [row, rowAt_oob (by omega)] at h
    simp at h

lemma wf_lookup_inj {g : Wdgraph} (hwf : WF g) {x y : String} {n : Nat}
    (hx : alookup g.hashmap x = some n) (hy : alookup g.hashmap y = some n) : x = y := by
  have hx2 := (wf_lookup_iff hwf).mp hx
  have hy2 := (wf_lookup_iff hwf).mp hy
  rw [hx2] at hy2
  injection hy2 with h

lemma edge_mem_directmap {g : Wdgraph} (hwf : WF g) {u v : String} {w : ℚ}
    (h : Edge g u v w) : u ∈ g.directmap ∧ v ∈ g.directmap := by
  rcases h with ⟨a, b, ha, hb, _⟩
  exact ⟨wf_lookup_mem hwf ha, wf_lookup_mem hwf hb⟩

lemma get_edge_red {g : Wdgraph} {u v : String} {a b : Nat}
    (hu : alookup g.hashmap u = some a) (hv : alookup g.hashmap v = some b) :
    get_edge g u v =
      match findWeight (row g a) b with
      | some w => Except.ok w
      | none => Except.error noEdgeMsg := by
  unfold get_edge map_value
  rw [hu, hv]

lemma get_edge_red_unreg_left {g : Wdgraph} {u v : String}
    (hu : alookup g.hashmap u = none) : get_edge g u v = Except.error unregMsg := by
  unfold get_edge map_value
  rw [hu]

lemma get_edge_red_unreg_right {g : Wdgraph} {u v : String} {a : Nat}
    (hu : alookup g.hashmap u = some a) (hv : alookup g.hashmap v = none) :
    get_edge g u v = Except.error unregMsg := by
  unfold get_edge map_value
  rw [hu, hv]

lemma get_edge_ok_iff {g : Wdgraph} (hwf : WF g) {u v : String} {w : ℚ} :
    get_edge g u v = Except.ok w ↔ Edge g u v w := by
  cases hu : alookup g.hashmap u with
  | none =>
    rw [get_edge_red_unreg_left hu]
    constructor
    · intro h; cases h
    · rintro ⟨a, b, ha, _, _⟩
      rw [hu] at ha; cases ha
  | some a =>
    cases hv : alookup g.hashmap v with
    | none =>
      rw [get_edge_red_unreg_right hu hv]
      constructor
      · intro h; cases h
      · rintro ⟨a2, b, _, hb, _⟩
        rw [hv] at hb; cases hb
    | some b =>
      rw [get_edge_red hu hv]
      cases hf : findWeight (row g a) b with
      | none =>
        constructor
        · intro h; cases h
        · rintro ⟨a2, b2, ha2, hb2, hm⟩
          rw [hu] at ha2; injection ha2 with ha2
          rw [hv] at hb2; injection hb2 with hb2
          rw [← ha2, ← hb2] at hm
          exact absurd hm (findWeight_none.mp hf w)
      | some w2 =>
        have hm := (findWeight_some (wf_row_nodup hwf a)).mp hf
        constructor
        · intro h
          injection h with h2
          exact ⟨a, b, hu, hv, h2 ▸ hm⟩
        · rintro ⟨a2, b2, ha2, hb2, hm2⟩
          rw [hu] at ha2; injection ha2 with ha2
          rw [hv] at hb2; injection hb2 with hb2
          rw [← ha2, ← hb2] at hm2
          exact congrArg Except.ok (nodup_fst_unique (wf_row_nodup hwf a) hm hm2)

lemma get_edge_congr {g1 g2 : Wdgraph} (hwf1 : WF g1) (hwf2 : WF g2)
    (hh : g1.hashmap = g2.hashmap) {u v : String}
    (he : ∀ w, Edge g1 u v w ↔ Edge g2 u v w) : get_edge g1 u v = get_edge g2 u v := by
  cases hu : alookup g1.hashmap u with
  | none =>
    rw [get_edge_red_unreg_left hu, get_edge_red_unreg_left (hh ▸ hu)]
  | some a =>
    cases hv : alookup g1.hashmap v with
    | none =>
      rw [get_edge_red_unreg_right hu hv, get_edge_red_unreg_right (hh ▸ hu) (hh ▸ hv)]
    | some b =>
      rw [get_edge_red hu hv, get_edge_red (hh ▸ hu) (hh ▸ hv)]
      cases hf1 : findWeight (row g1 a) b with
      | none =>
        cases hf2 : findWeight (row g2 a) b with
        | none => rfl
        | some w =>
          have h2 : Edge g2 u v w :=
            ⟨a, b, hh ▸ hu, hh ▸ hv, (findWeight_some (wf_row_nodup hwf2 a)).mp hf2⟩
          rcases (he w).mpr h2 with ⟨a2, b2, ha2, hb2, hm2⟩
          rw [hu] at ha2; injection ha2 with ha2
          rw [hv] at hb2; injection hb2 with hb2
          rw [← ha2, ← hb2] at hm2
          exact absurd hm2 (findWeight_none.mp hf1 w)
      | some w =>
        have h1 : Edge g1 u v w :=
          ⟨a, b, hu, hv, (findWeight_some (wf_row_nodup hwf1 a)).mp hf1⟩
        rcases (he w).mp h1 with ⟨a2, b2, ha2, hb2, hm2⟩
        have hu2 := hh ▸ hu
        have hv2 := hh ▸ hv
        rw [hu2] at ha2; injection ha2 with ha2
        rw [hv2] at hb2; injection hb2 with hb2
        rw [← ha2, ← hb2] at hm2
        rw [(findWeight_some (wf_row_nodup hwf2 a)).mpr hm2]

/-! ## register_node characterization -/

lemma alookup_append (h1 h2 : List (String × Nat)) (u : String) :
    alookup (h1 ++ h2) u =
      match alookup h1 u with
      | some n => some n
      | none => alookup h2 u := by
  induction h1 with
  | nil => rfl
  | cons p rest ih =>
    rcases p with ⟨k, n⟩
    by_cases h : k = u
    · simp [alookup, h]
    · simpa [alookup, h] using ih

lemma idxPairs_append (l1 l2 : List String) (k : Nat) :
    idxPairs (l1 ++ l2) k = idxPairs l1 k ++ idxPairs l2 (k + l1.length) := by
  induction l1 generalizing k with
  | nil => simp [idxPairs]
  | cons u rest ih =>
    show (u, k) :: idxPairs (rest ++ l2) (k + 1) =
      (u, k) :: (idxPairs rest (k + 1) ++ idxPairs l2 (k + (rest.length + 1)))
    rw [ih]
    have h2 : k + 1 + rest.length = k + (rest.length + 1) := by omega
    rw [h2]

lemma rowAt_append_lt {l1 l2 : List (List (Nat × ℚ))} {i : Nat} (h : i < l1.length) :
    rowAt (l1 ++ l2) i = rowAt l1 i := by
  induction l1 generalizing i with
  | nil => simp at h
  | cons r rest ih =>
    cases i with
    | zero => rfl
    | succ j => simpa [rowAt] using ih (by simpa using h)

lemma rowAt_append_ge {l1 l2 : List (List (Nat × ℚ))} {i : Nat} (h : l1.length ≤ i) :
    rowAt (l1 ++ l2) i = rowAt l2 (i - l1.length) := by
  induction l1 generalizing i with
  | nil => simp
  | cons r rest ih =>
    cases i with
    | zero => simp at h
    | succ j =>
      have hj := @ih j (by simpa using h)
      simpa [rowAt] using hj

lemma register_node_found {g : Wdgraph} {u : String} {n : Nat}
    (h : alookup g.hashmap u = some n) : register_node g u = (n, g) := by
  unfold register_node
  rw [h]

lemma register_node_new {g : Wdgraph} {u : String} (h : alookup g.hashmap u = none) :
    register_node g u =
      (g.len, ⟨g.len + 1, g.hashmap ++ [(u, g.len)], g.directmap ++ [u], g.adj_list ++ [[]]⟩) := by
  unfold register_node
  rw [h]

lemma register_node_wf {g : Wdgraph} (hwf : WF g) (u : String) : WF (register_node g u).2 := by
  cases hu : alookup g.hashmap u with
  | some n => rw [register_node_found hu]; exact hwf
  | none =>
    rw [register_node_new hu]
    rcases hwf with ⟨hdl, hal, hh, hnd, hrows⟩
    refine ⟨by simpa using hdl, by simpa using hal, ?_, ?_, ?_⟩
    · show g.hashmap ++ [(u, g.len)] = idxPairs (g.directmap ++ [u]) 0
      rw [idxPairs_append, hh, hdl]
      simp [idxPairs]
    · refine List.Nodup.append hnd (List.nodup_singleton u) ?_
      intro a ha hb
      rw [List.mem_singleton] at hb
      rw [hb] at ha
      exact (alookup_idxPairs_none.mp (hh ▸ hu)) ha
    · intro r hr
      rcases List.mem_append.mp hr with hr | hr
      · rcases hrows r hr with ⟨ht, hn⟩
        exact ⟨fun tw htw => Nat.lt_succ_of_lt (ht tw htw), hn⟩
      · rw [List.mem_singleton] at hr
        rw [hr]
        exact ⟨by simp, by simp⟩

lemma register_node_lookup_self {g : Wdgraph} (u : String) :
    alookup (register_node g u).2.hashmap u = some (register_node g u).1 := by
  cases hu : alookup g.hashmap u with
  | some n => rw [register_node_found hu]; exact hu
  | none =>
    rw [register_node_new hu]
    show alookup (g.hashmap ++ [(u, g.len)]) u = some g.len
    rw [alookup_append, hu]
    simp [alookup]

lemma register_node_lookup_mono {g : Wdgraph} {x : String} {n : Nat}
    (h : alookup g.hashmap x = some n) (u : String) :
    alookup (register_node g u).2.hashmap x = some n := by
  cases hu : alookup g.hashmap u with
  | some n2 => rw [register_node_found hu]; exact h
  | none =>
    rw [register_node_new hu]
    simp only [alookup_append, h]

lemma register_node_edge {g : Wdgraph} (hwf : WF g) (u : String) {x y : String} {w : ℚ} :
    Edge (register_node g u).2 x y w ↔ Edge g x y w := by
  cases hu : alookup g.hashmap u with
  | some n => rw [register_node_found hu]
  | none =>
    rw [register_node_new hu]
    constructor
    · rintro ⟨a, b, ha, hb, hm⟩
      have ha0 : alookup (g.hashmap ++ [(u, g.len)]) x = some a := ha
      have hb0 : alookup (g.hashmap ++ [(u, g.len)]) y = some b := hb
      have hm0 : (b, w) ∈ rowAt (g.adj_list ++ [[]]) a := hm
      have ha2 : a < g.adj_list.length := by
        by_contra hge
        have hge2 : g.adj_list.length ≤ a := by omega
        rw [rowAt_append_ge hge2] at hm0
        by_cases hext : a - g.adj_list.length = 0
        · rw [hext] at hm0
          simp [rowAt] at hm0
        · rw [rowAt_oob (by simp; omega)] at hm0
          simp at hm0
      have halt : a < g.len := by
        have := hwf.2.1
        omega
      have hmem : (b, w) ∈ row g a := by
        rw [row, ← @rowAt_append_lt g.adj_list [[]] a ha2]
        exact hm0
      have hbl : b < g.len := wf_row_targets hwf hmem
      have haold : alookup g.hashmap x = some a := by
        rw [alookup_append] at ha0
        cases hxa : alookup g.hashmap x with
        | some a2 =>
          rw [hxa] at ha0
          exact ha0
        | none =>
          rw [hxa] at ha0
          have ha3 : alookup [(u, g.len)] x = some a := ha0
          simp only [alookup] at ha3
          split at ha3
          · injection ha3 with ha4
            exact absurd ha4 (Nat.ne_of_gt halt)
          · cases ha3
      have hbold : alookup g.hashmap y = some b := by
        rw [alookup_append] at hb0
        cases hyb : alookup g.hashmap y with
        | some b2 =>
          rw [hyb] at hb0
          exact hb0
        | none =>
          rw [hyb] at hb0
          have hb3 : alookup [(u, g.len)] y = some b := hb0
          simp only [alookup] at hb3
          split at hb3
          · injection hb3 with hb4
            exact absurd hb4 (Nat.ne_of_gt hbl)
          · cases hb3
      exact ⟨a, b, haold, hbold, hmem⟩
    · rintro ⟨a, b, ha, hb, hm⟩
      refine ⟨a, b, ?_, ?_, ?_⟩
      · simp only [alookup_append, ha]
      · simp only [alookup_append, hb]
      · have ha2 : a < g.adj_list.length := by
          have := wf_lookup_lt hwf ha
          have := hwf.2.1
          omega
        rw [row, rowAt_append_lt ha2]
        exact hm

/-! ## raw_set_edge, set_edge and remove_edge characterization -/

lemma raw_set_edge_registry (g : Wdgraph) (n1 n2 : Nat) (w : ℚ) :
    (raw_set_edge g n1 n2 w).hashmap = g.hashmap ∧
    (raw_set_edge g n1 n2 w).directmap = g.directmap ∧
    (raw_set_edge g n1 n2 w).len = g.len := ⟨rfl, rfl, rfl⟩

lemma raw_set_edge_row_self {g : Wdgraph} {n1 : Nat} (h : n1 < g.adj_list.length)
    (n2 : Nat) (w : ℚ) : row (raw_set_edge g n1 n2 w) n1 = rawSetRow (row g n1) n2 w :=
  rowAt_modifyRow_self _ h

lemma raw_set_edge_row_ne {g : Wdgraph} {n1 a : Nat} (h : n1 ≠ a) (n2 : Nat) (w : ℚ) :
    row (raw_set_edge g n1 n2 w) a = row g a :=
  rowAt_modifyRow_ne _ h

lemma raw_set_edge_wf {g : Wdgraph} (hwf : WF g) (n1 : Nat) {n2 : Nat} (h2 : n2 < g.len)
    (w : ℚ) : WF (raw_set_edge g n1 n2 w) := by
  rcases hwf with ⟨hdl, hal, hh, hnd, hrows⟩
  refine ⟨hdl, by simpa [raw_set_edge, modifyRow_length] using hal, hh, hnd, ?_⟩
  intro r hr
  rcases mem_modifyRow hr with hr | ⟨r0, hr0, hreq⟩
  · exact hrows r hr
  · rcases hrows r0 hr0 with ⟨ht, hn⟩
    rw [hreq]
    exact ⟨rawSetRow_targets_lt ht h2 w, rawSetRow_nodup hn n2 w⟩

lemma raw_set_edge_edge {g : Wdgraph} (hwf : WF g) {u v : String} {n1 n2 : Nat}
    (hu : alookup g.hashmap u = some n1) (hv : alookup g.hashmap v = some n2) (w : ℚ)
    {x y : String} {w2 : ℚ} :
    Edge (raw_set_edge g n1 n2 w) x y w2 ↔
      (x = u ∧ y = v ∧ w2 = w) ∨ (Edge g x y w2 ∧ ¬(x = u ∧ y = v)) := by
  have hn1 : n1 < g.adj_list.length := by
    have := wf_lookup_lt hwf hu
    have := hwf.2.1
    omega
  constructor
  · rintro ⟨a, b, ha, hb, hm⟩
    have ha0 : alookup g.hashmap x = some a := ha
    have hb0 : alookup g.hashmap y = some b := hb
    by_cases haa : a = n1
    · subst haa
      rw [raw_set_edge_row_self hn1] at hm
      have hxu : x = u := wf_lookup_inj hwf ha0 hu
      rcases (mem_rawSetRow (wf_row_nodup hwf a)).mp hm with ⟨hbn, hww⟩ | ⟨hmem, hbn⟩
      · refine Or.inl ⟨hxu, ?_, hww⟩
        exact wf_lookup_inj hwf (hbn ▸ hb0) hv
      · refine Or.inr ⟨⟨a, b, ha0, hb0, hmem⟩, ?_⟩
        rintro ⟨-, hyv⟩
        rw [hyv] at hb0
        rw [hv] at hb0
        injection hb0 with hb2
        exact hbn hb2.symm
    · rw [raw_set_edge_row_ne (fun hc => haa hc.symm)] at hm
      refine Or.inr ⟨⟨a, b, ha0, hb0, hm⟩, ?_⟩
      rintro ⟨hxu, -⟩
      rw [hxu] at ha0
      rw [hu] at ha0
      injection ha0 with ha2
      exact haa ha2.symm
  · rintro (⟨hxu, hyv, hww⟩ | ⟨⟨a, b, ha, hb, hm⟩, hne⟩)
    · subst hxu; subst hyv; subst hww
      refine ⟨n1, n2, hu, hv, ?_⟩
      rw [raw_set_edge_row_self hn1]
      exact (mem_rawSetRow (wf_row_nodup hwf n1)).mpr (Or.inl ⟨rfl, rfl⟩)
    · by_cases haa : a = n1
      · subst haa
        have hxu : x = u := wf_lookup_inj hwf ha hu
        have hyv : y ≠ v := fun hc => hne ⟨hxu, hc⟩
        have hbn : b ≠ n2 := by
          intro hc
          exact hyv (wf_lookup_inj hwf (hc ▸ hb) hv)
        refine ⟨a, b, ha, hb, ?_⟩
        rw [raw_set_edge_row_self hn1]
        exact (mem_rawSetRow (wf_row_nodup hwf a)).mpr (Or.inr ⟨hm, hbn⟩)
      · refine ⟨a, b, ha, hb, ?_⟩
        rw [raw_set_edge_row_ne (fun hc => haa hc.symm)]
        exact hm

lemma set_edge_eq (g : Wdgraph) (u v : String) (w : ℚ) :
    set_edge g u v w =
      raw_set_edge (register_node (register_node g u).2 v).2
        (register_node g u).1 (register_node (register_node g u).2 v).1 w := rfl

lemma set_edge_wf {g : Wdgraph} (hwf : WF g) (u v : String) (w : ℚ) :
    WF (set_edge g u v w) := by
  rw [set_edge_eq]
  have hwf1 : WF (register_node g u).2 := register_node_wf hwf u
  have hwf2 : WF (register_node (register_node g u).2 v).2 := register_node_wf hwf1 v
  exact raw_set_edge_wf hwf2 _
    (wf_lookup_lt hwf2 (register_node_lookup_self v)) w

lemma set_edge_edge {g : Wdgraph} (hwf : WF g) (u v : String) (w : ℚ)
    {x y : String} {w2 : ℚ} :
    Edge (set_edge g u v w) x y w2 ↔
      (x = u ∧ y = v ∧ w2 = w) ∨ (Edge g x y w2 ∧ ¬(x = u ∧ y = v)) := by
  rw [set_edge_eq]
  have hwf1 : WF (register_node g u).2 := register_node_wf hwf u
  have hwf2 : WF (register_node (register_node g u).2 v).2 := register_node_wf hwf1 v
  have hu2 : alookup (register_node (register_node g u).2 v).2.hashmap u =
      some (register_node g u).1 :=
    register_node_lookup_mono (register_node_lookup_self u) v
  have hv2 : alookup (register_node (register_node g u).2 v).2.hashmap v =
      some (register_node (register_node g u).2 v).1 :=
    register_node_lookup_self v
  rw [raw_set_edge_edge hwf2 hu2 hv2 w]
  rw [(register_node_edge hwf1 v).trans (register_node_edge hwf u)]

lemma set_edge_lookup_mono {g : Wdgraph} {x : String} {n : Nat}
    (h : alookup g.hashmap x = some n) (u v : String) (w : ℚ) :
    alookup (set_edge g u v w).hashmap x = some n := by
  rw [set_edge_eq]
  exact register_node_lookup_mono (register_node_lookup_mono h u) v

lemma set_edge_hashmap_of_regd {g : Wdgraph} {u v : String} {n1 n2 : Nat}
    (hu : alookup g.hashmap u = some n1) (hv : alookup g.hashmap v = some n2) (w : ℚ) :
    set_edge g u v w = raw_set_edge g n1 n2 w := by
  rw [set_edge_eq, register_node_found hu]
  rw [register_node_found hv]

/-! ## get_outdegree characterization -/

lemma get_outdegree_red {g : Wdgraph} {x : String} {n : Nat}
    (h : alookup g.hashmap x = some n) :
    get_outdegree g x = Except.ok (row g n).length := by
  unfold get_outdegree map_value
  rw [h]

lemma get_outdegree_red_unreg {g : Wdgraph} {x : String}
    (h : alookup g.hashmap x = none) : get_outdegree g x = Except.error unregMsg := by
  unfold get_outdegree map_value
  rw [h]

lemma set_edge_outdegree_of_edge {g : Wdgraph} (hwf : WF g) {u v : String} {w0 : ℚ}
    (hE : Edge g u v w0) (w2 : ℚ) (x : String) :
    get_outdegree (set_edge g u v w2) x = get_outdegree g x := by
  rcases hE with ⟨n1, n2, hu, hv, hm⟩
  have hn1 : n1 < g.adj_list.length := by
    have := wf_lookup_lt hwf hu
    have := hwf.2.1
    omega
  rw [set_edge_hashmap_of_regd hu hv w2]
  cases hx : alookup g.hashmap x with
  | none =>
    have hx2 : alookup (raw_set_edge g n1 n2 w2).hashmap x = none := hx
    rw [get_outdegree_red_unreg hx2, get_outdegree_red_unreg hx]
  | some nx =>
    have hx2 : alookup (raw_set_edge g n1 n2 w2).hashmap x = some nx := hx
    rw [get_outdegree_red hx2, get_outdegree_red hx]
    by_cases hxx : nx = n1
    · subst hxx
      rw [raw_set_edge_row_self hn1]
      rw [rawSetRow_length_present w2 (List.mem_map.mpr ⟨(n2, w0), hm, rfl⟩)]
    · rw [raw_set_edge_row_ne (fun hc => hxx hc.symm)]

/-! ## remove_edge characterization -/

lemma remove_edge_red {g : Wdgraph} {u v : String} {n1 n2 : Nat}
    (hu : alookup g.hashmap u = some n1) (hv : alookup g.hashmap v = some n2) :
    remove_edge g u v =
      match lastMatch (row g n1) n2 with
      | some p =>
        Except.ok { g with adj_list := modifyRow g.adj_list n1 (fun r => removeFirstEq r p) }
      | none => Except.error noEdgeMsg := by
  unfold remove_edge map_value
  rw [hu, hv]

lemma remove_edge_red_unreg_left {g : Wdgraph} {u v : String}
    (hu : alookup g.hashmap u = none) : remove_edge g u v = Except.error unregMsg := by
  unfold remove_edge map_value
  rw [hu]

lemma remove_edge_red_unreg_right {g : Wdgraph} {u v : String} {a : Nat}
    (hu : alookup g.hashmap u = some a) (hv : alookup g.hashmap v = none) :
    remove_edge g u v = Except.error unregMsg := by
  unfold remove_edge map_value
  rw [hu, hv]

lemma remove_edge_error_msg {g : Wdgraph} {u v : String} {e : String}
    (h : remove_edge g u v = Except.error e) : e = unregMsg ∨ e = noEdgeMsg := by
  cases hu : alookup g.hashmap u with
  | none =>
    rw [remove_edge_red_unreg_left hu] at h
    injection h with h2
    exact Or.inl h2.symm
  | some n1 =>
    cases hv : alookup g.hashmap v with
    | none =>
      rw [remove_edge_red_unreg_right hu hv] at h
      injection h with h2
      exact Or.inl h2.symm
    | some n2 =>
      rw [remove_edge_red hu hv] at h
      cases hl : lastMatch (row g n1) n2 with
      | some p => rw [hl] at h; cases h
      | none =>
        rw [hl] at h
        injection h with h2
        exact Or.inr h2.symm

lemma sum_lengths_modifyRow {adj : List (List (Nat × ℚ))} {i : Nat}
    (f : List (Nat × ℚ) → List (Nat × ℚ)) (h : i < adj.length) :
    ((modifyRow adj i f).map List.length).sum + (rowAt adj i).length =
      (adj.map List.length).sum + (f (rowAt adj i)).length := by
  induction adj generalizing i with
  | nil => simp at h
  | cons r rest ih =>
    cases i with
    | zero =>
      simp only [modifyRow, rowAt, List.map_cons, List.sum_cons]
      omega
    | succ j =>
      have hj := @ih j (by simpa using h)
      simp only [modifyRow, rowAt, List.map_cons, List.sum_cons]
      omega

/-- Full characterization of a successful removal: the edge was present, the
registry is unchanged, exactly that one label edge disappears, well-formedness
is preserved and the edge count drops by one. -/
lemma remove_edge_ok_of_edge {g : Wdgraph} (hwf : WF g) {u v : String} {w0 : ℚ}
    (hE : Edge g u v w0) :
    ∃ g2, remove_edge g u v = Except.ok g2 ∧
      g2.hashmap = g.hashmap ∧ g2.directmap = g.directmap ∧ g2.len = g.len ∧
      WF g2 ∧ totalEdges g2 + 1 = totalEdges g ∧
      (∀ x y w2, Edge g2 x y w2 ↔ Edge g x y w2 ∧ ¬(x = u ∧ y = v)) := by
  rcases hE with ⟨n1, n2, hu, hv, hm⟩
  have hn1 : n1 < g.adj_list.length := by
    have := wf_lookup_lt hwf hu
    have := hwf.2.1
    omega
  have hnd1 : ((row g n1).map Prod.fst).Nodup := wf_row_nodup hwf n1
  cases hl : lastMatch (row g n1) n2 with
  | none => exact absurd hm (lastMatch_none.mp hl w0)
  | some p =>
    rcases lastMatch_some_mem hl with ⟨hpmem, hpf⟩
    refine ⟨{ g with adj_list := modifyRow g.adj_list n1 (fun r => removeFirstEq r p) },
      by rw [remove_edge_red hu hv, hl], rfl, rfl, rfl, ?_, ?_, ?_⟩
    · rcases hwf with ⟨hdl, hal, hh, hnd, hrows⟩
      refine ⟨hdl, by simpa [modifyRow_length] using hal, hh, hnd, ?_⟩
      intro r hr
      rcases mem_modifyRow hr with hr | ⟨r0, hr0, hreq⟩
      · exact hrows r hr
      · rcases hrows r0 hr0 with ⟨ht, hn⟩
        rw [hreq]
        constructor
        · exact fun tw htw => ht tw (mem_removeFirstEq htw)
        · exact List.Nodup.sublist
            (List.Sublist.map Prod.fst (removeFirstEq_sublist r0 p)) hn
    · show ((modifyRow g.adj_list n1 (fun r => removeFirstEq r p)).map List.length).sum + 1 =
        (g.adj_list.map List.length).sum
      have hs : ((modifyRow g.adj_list n1 (fun r => removeFirstEq r p)).map List.length).sum +
          (rowAt g.adj_list n1).length =
          (g.adj_list.map List.length).sum + (removeFirstEq (rowAt g.adj_list n1) p).length :=
        sum_lengths_modifyRow (fun r => removeFirstEq r p) hn1
      have hl2 : (removeFirstEq (rowAt g.adj_list n1) p).length + 1 =
          (rowAt g.adj_list n1).length :=
        removeFirstEq_length hpmem
      omega
    · have hrow_self : rowAt (modifyRow g.adj_list n1 (fun r => removeFirstEq r p)) n1 =
          removeFirstEq (row g n1) p :=
        rowAt_modifyRow_self (fun r => removeFirstEq r p) hn1
      intro x y w2
      constructor
      · rintro ⟨a, b, ha, hb, hmm⟩
        have ha0 : alookup g.hashmap x = some a := ha
        have hb0 : alookup g.hashmap y = some b := hb
        have hmm2 : (b, w2) ∈ rowAt (modifyRow g.adj_list n1 (fun r => removeFirstEq r p)) a :=
          hmm
        by_cases haa : a = n1
        · subst haa
          rw [hrow_self] at hmm2
          have hmem := mem_removeFirstEq hmm2
          refine ⟨⟨a, b, ha0, hb0, hmem⟩, ?_⟩
          rintro ⟨hxu, hyv⟩
          rw [hyv, hv] at hb0
          injection hb0 with hb2
          have hb2b : b = n2 := hb2.symm
          have hpfst : p = (n2, p.2) := by
            rcases p with ⟨pt, pw⟩
            simp only [Prod.mk.injEq]
            exact ⟨hpf, trivial⟩
          have hpmem2 : (n2, p.2) ∈ row g a := by
            rw [← hpfst]
            exact hpmem
          have hw : w2 = p.2 := nodup_fst_unique hnd1 (hb2b ▸ hmem) hpmem2
          have hpeq : (b, w2) = p := by
            rw [hpfst]
            simp only [Prod.mk.injEq]
            exact ⟨hb2b, hw⟩
          refine absurd hmm2 ?_
          rw [hpeq]
          exact not_mem_removeFirstEq_self hnd1
        · rw [rowAt_modifyRow_ne _ (fun hc => haa hc.symm)] at hmm2
          refine ⟨⟨a, b, ha0, hb0, hmm2⟩, ?_⟩
          rintro ⟨hxu, -⟩
          rw [hxu, hu] at ha0
          injection ha0 with ha2
          exact haa ha2.symm
      · rintro ⟨⟨a, b, ha, hb, hmm⟩, hne⟩
        refine ⟨a, b, ha, hb, ?_⟩
        show (b, w2) ∈ rowAt (modifyRow g.adj_list n1 (fun r => removeFirstEq r p)) a
        by_cases haa : a = n1
        · subst haa
          rw [hrow_self]
          refine mem_removeFirstEq_of_ne ?_ hmm
          intro hc
          apply hne
          have hxu : x = u := wf_lookup_inj hwf ha hu
          have hbn2 : b = n2 := (congrArg Prod.fst hc).trans hpf
          have hyv : y = v := wf_lookup_inj hwf (hbn2 ▸ hb) hv
          exact ⟨hxu, hyv⟩
        · rw [rowAt_modifyRow_ne _ (fun hc => haa hc.symm)]
          exact hmm

/-! ## Query characterizations -/

lemma wf_labAt_lookup {g : Wdgraph} (hwf : WF g) {n : Nat} (h : n < g.len) :
    alookup g.hashmap (labAt g.directmap n) = some n := by
  have hlen : n < g.directmap.length := by
    have := hwf.1
    omega
  rw [labAt_eq_getElem hlen]
  exact (wf_lookup_iff hwf).mpr (List.getElem?_eq_getElem hlen)

lemma wf_lookup_labAt {g : Wdgraph} (hwf : WF g) {x : String} {n : Nat}
    (h : alookup g.hashmap x = some n) : labAt g.directmap n = x := by
  have h2 := (wf_lookup_iff hwf).mp h
  rcases List.getElem?_eq_some_iff.mp h2 with ⟨hlt, hx⟩
  rw [labAt_eq_getElem hlt, hx]

lemma get_outneighbors_red {g : Wdgraph} {x : String} {n : Nat}
    (h : alookup g.hashmap x = some n) :
    get_outneighbors g x =
      Except.ok ((row g n).map (fun tw => (labAt g.directmap tw.1, tw.2))) := by
  unfold get_outneighbors map_value
  rw [h]

lemma get_outneighbors_red_unreg {g : Wdgraph} {x : String}
    (h : alookup g.hashmap x = none) : get_outneighbors g x = Except.error unregMsg := by
  unfold get_outneighbors map_value
  rw [h]

lemma get_outneighbors_mem {g : Wdgraph} (hwf : WF g) {x : String} {n : Nat}
    (h : alookup g.hashmap x = some n) {m : String} {w : ℚ} :
    (m, w) ∈ (row g n).map (fun tw => (labAt g.directmap tw.1, tw.2)) ↔ Edge g x m w := by
  constructor
  · intro hm
    rcases List.mem_map.mp hm with ⟨tw, htw, heq⟩
    have h1 : labAt g.directmap tw.1 = m := (congrArg Prod.fst heq)
    have h2 : tw.2 = w := (congrArg Prod.snd heq)
    have hlt : tw.1 < g.len := wf_row_targets hwf htw
    refine ⟨n, tw.1, h, ?_, ?_⟩
    · rw [← h1]
      exact wf_labAt_lookup hwf hlt
    · rw [← h2]
      exact htw
  · rintro ⟨a, b, ha, hb, hm⟩
    rw [h] at ha
    injection ha with ha2
    rw [← ha2] at hm
    refine List.mem_map.mpr ⟨(b, w), hm, ?_⟩
    simp only [Prod.mk.injEq]
    exact ⟨wf_lookup_labAt hwf hb, trivial⟩

lemma get_outneighbors_fst_nodup {g : Wdgraph} (hwf : WF g) (n : Nat) :
    (((row g n).map (fun tw => (labAt g.directmap tw.1, tw.2))).map Prod.fst).Nodup := by
  have h1 : ((row g n).map (fun tw => (labAt g.directmap tw.1, tw.2))).map Prod.fst =
      (row g n).map (fun tw => labAt g.directmap tw.1) := by
    rw [List.map_map]
    rfl
  rw [h1]
  refine List.Nodup.map_on ?_ (List.Nodup.of_map Prod.fst (wf_row_nodup hwf n))
  rintro ⟨a1, b1⟩ ht1 ⟨a2, b2⟩ ht2 heq
  have hl1 : a1 < g.directmap.length := by
    have := wf_row_targets hwf ht1
    have := hwf.1
    omega
  have hl2 : a2 < g.directmap.length := by
    have := wf_row_targets hwf ht2
    have := hwf.1
    omega
  have heq2 : labAt g.directmap a1 = labAt g.directmap a2 := heq
  rw [labAt_eq_getElem hl1, labAt_eq_getElem hl2] at heq2
  have hidx : a1 = a2 := (List.Nodup.getElem_inj_iff hwf.2.2.2.1).mp heq2
  subst hidx
  have hw : b1 = b2 := nodup_fst_unique (wf_row_nodup hwf n) ht1 ht2
  rw [hw]

lemma innerScan_mem {adj : List (List (Nat × ℚ))} {dm : List String} {n : Nat} {k : Nat}
    {m : String} {w : ℚ} :
    (m, w) ∈ innerScan adj dm n k ↔
      ∃ i r, adj[i]? = some r ∧ (n, w) ∈ r ∧ m = labAt dm (k + i) := by
  induction adj generalizing k with
  | nil => simp [innerScan]
  | cons r rest ih =>
    simp only [innerScan, List.mem_append]
    constructor
    · intro hm
      rcases hm with hm | hm
      · rcases List.mem_filterMap.mp hm with ⟨tw, htw, hf⟩
        by_cases ht : tw.1 = n
        · rw [if_pos ht] at hf
          injection hf with hf2
          have hm2 : m = labAt dm k := (congrArg Prod.fst hf2).symm
          have hw2 : w = tw.2 := (congrArg Prod.snd hf2).symm
          refine ⟨0, r, by simp, ?_, by simpa using hm2⟩
          rw [hw2, ← ht]
          exact htw
        · rw [if_neg ht] at hf
          cases hf
      · rcases ih.mp hm with ⟨i, r2, hir, hmem, hlab⟩
        refine ⟨i + 1, r2, by simpa using hir, hmem, ?_⟩
        rw [hlab]
        have : k + 1 + i = k + (i + 1) := by omega
        rw [this]
    · rintro ⟨i, r2, hir, hmem, hlab⟩
      cases i with
      | zero =>
        simp only [List.getElem?_cons_zero, Option.some_inj] at hir
        refine Or.inl (List.mem_filterMap.mpr ⟨(n, w), by rw [hir]; exact hmem, ?_⟩)
        rw [if_pos rfl]
        rw [hlab]
        simp
      | succ j =>
        simp only [List.getElem?_cons_succ] at hir
        refine Or.inr (ih.mpr ⟨j, r2, hir, hmem, ?_⟩)
        rw [hlab]
        have : k + (j + 1) = k + 1 + j := by omega
        rw [this]

lemma get_inneighbors_red {g : Wdgraph} {v : String} {n : Nat}
    (h : alookup g.hashmap v = some n) :
    get_inneighbors g v = Except.ok (innerScan g.adj_list g.directmap n 0) := by
  unfold get_inneighbors map_value
  rw [h]

lemma get_inneighbors_red_unreg {g : Wdgraph} {v : String}
    (h : alookup g.hashmap v = none) : get_inneighbors g v = Except.error unregMsg := by
  unfold get_inneighbors map_value
  rw [h]

lemma get_inneighbors_error_msg {g : Wdgraph} {v : String} {e : String}
    (h : get_inneighbors g v = Except.error e) : e = unregMsg := by
  cases hv : alookup g.hashmap v with
  | none =>
    rw [get_inneighbors_red_unreg hv] at h
    injection h with h2
    exact h2.symm
  | some n =>
    rw [get_inneighbors_red hv] at h
    cases h

lemma get_inneighbors_mem {g : Wdgraph} (hwf : WF g) {v : String} {nv : Nat}
    (h : alookup g.hashmap v = some nv) {m : String} {w : ℚ} :
    (m, w) ∈ innerScan g.adj_list g.directmap nv 0 ↔ Edge g m v w := by
  rw [innerScan_mem]
  constructor
  · rintro ⟨i, r, hir, hmem, hlab⟩
    have hilt : i < g.adj_list.length := by
      rcases List.getElem?_eq_some_iff.mp hir with ⟨hlt, _⟩
      exact hlt
    have hrow : row g i = r := by
      rw [row, rowAt_eq_getElem hilt]
      rcases List.getElem?_eq_some_iff.mp hir with ⟨hlt, hr⟩
      exact hr
    have hlen : i < g.len := by
      have := hwf.2.1
      omega
    refine ⟨i, nv, ?_, h, by rw [hrow]; exact hmem⟩
    rw [hlab]
    have : (0 : Nat) + i = i := by omega
    rw [this]
    exact wf_labAt_lookup hwf hlen
  · rintro ⟨a, b, ha, hb, hmem⟩
    rw [h] at hb
    injection hb with hb2
    have halt : a < g.adj_list.length := by
      have := wf_lookup_lt hwf ha
      have := hwf.2.1
      omega
    refine ⟨a, row g a, ?_, ?_, ?_⟩
    · rw [row, rowAt_eq_getElem halt]
      exact List.getElem?_eq_getElem halt
    · rw [hb2]
      exact hmem
    · have : (0 : Nat) + a = a := by omega
      rw [this]
      exact (wf_lookup_labAt hwf ha).symm

lemma innerScan_nil_iff {g : Wdgraph} (hwf : WF g) {v : String} {nv : Nat}
    (h : alookup g.hashmap v = some nv) :
    innerScan g.adj_list g.directmap nv 0 = [] ↔ ∀ m w, ¬ Edge g m v w := by
  rw [List.eq_nil_iff_forall_not_mem]
  constructor
  · intro hn m w hE
    exact hn (m, w) ((get_inneighbors_mem hwf h).mpr hE)
  · intro hn tw htw
    rcases tw with ⟨m, w⟩
    exact hn m w ((get_inneighbors_mem hwf h).mp htw)

lemma all_edges_nil_iff {g : Wdgraph} (hwf : WF g) :
    all_edges g = [] ↔ ∀ u v w, ¬ Edge g u v w := by
  constructor
  · intro hn u v w hE
    rcases hE with ⟨a, b, ha, hb, hm⟩
    have halt : a < g.adj_list.length := by
      have := wf_lookup_lt hwf ha
      have := hwf.2.1
      omega
    have hmem : (b, w) ∈ all_edges g := by
      unfold all_edges
      refine List.mem_flatten.mpr ⟨row g a, ?_, hm⟩
      exact rowAt_mem halt
    rw [hn] at hmem
    simp at hmem
  · intro hn
    rw [List.eq_nil_iff_forall_not_mem]
    intro tw htw
    rcases List.mem_flatten.mp htw with ⟨r, hr, hmem⟩
    rcases List.mem_iff_getElem?.mp hr with ⟨i, hir⟩
    have hilt : i < g.adj_list.length := by
      rcases List.getElem?_eq_some_iff.mp hir with ⟨hlt, _⟩
      exact hlt
    have hlen : i < g.len := by
      have := hwf.2.1
      omega
    have hrow : row g i = r := by
      rw [row, rowAt_eq_getElem hilt]
      rcases List.getElem?_eq_some_iff.mp hir with ⟨_, hr2⟩
      exact hr2
    have htlt : tw.1 < g.len := by
      have hmem2 : tw ∈ row g i := by rw [hrow]; exact hmem
      exact wf_row_targets hwf hmem2
    refine hn (labAt g.directmap i) (labAt g.directmap tw.1) tw.2
      ⟨i, tw.1, wf_labAt_lookup hwf hlen, wf_labAt_lookup hwf htlt, ?_⟩
    rw [hrow]
    simpa using hmem

lemma mem_targetsLabels {g : Wdgraph} (hwf : WF g) {x : String} :
    x ∈ targetsLabels g.adj_list g.directmap ↔ ∃ u w, Edge g u x w := by
  unfold targetsLabels
  constructor
  · intro hm
    rcases List.mem_map.mp hm with ⟨tw, htw, heq⟩
    rcases List.mem_flatten.mp htw with ⟨r, hr, hmem⟩
    rcases List.mem_iff_getElem?.mp hr with ⟨i, hir⟩
    have hilt : i < g.adj_list.length := by
      rcases List.getElem?_eq_some_iff.mp hir with ⟨hlt, _⟩
      exact hlt
    have hlen : i < g.len := by
      have := hwf.2.1
      omega
    have hrow : row g i = r := by
      rw [row, rowAt_eq_getElem hilt]
      rcases List.getElem?_eq_some_iff.mp hir with ⟨_, hr2⟩
      exact hr2
    have htlt : tw.1 < g.len := by
      have hmem2 : tw ∈ row g i := by rw [hrow]; exact hmem
      exact wf_row_targets hwf hmem2
    refine ⟨labAt g.directmap i, tw.2, i, tw.1, wf_labAt_lookup hwf hlen, ?_, ?_⟩
    · rw [← heq]
      exact wf_labAt_lookup hwf htlt
    · rw [hrow]
      simpa using hmem
  · rintro ⟨u, w, a, b, ha, hb, hm⟩
    have halt : a < g.adj_list.length := by
      have := wf_lookup_lt hwf ha
      have := hwf.2.1
      omega
    refine List.mem_map.mpr ⟨(b, w), ?_, wf_lookup_labAt hwf hb⟩
    exact List.mem_flatten.mpr ⟨row g a, rowAt_mem halt, hm⟩

lemma mem_nodes_without_incoming {g : Wdgraph} (hwf : WF g) {x : String} :
    x ∈ get_nodes_without_incoming g ↔ x ∈ g.directmap ∧ ∀ u w, ¬ Edge g u x w := by
  unfold get_nodes_without_incoming
  rw [List.mem_filter]
  constructor
  · rintro ⟨hm, hd⟩
    refine ⟨hm, ?_⟩
    intro u w hE
    have := of_decide_eq_true hd
    exact this ((mem_targetsLabels hwf).mpr ⟨u, w, hE⟩)
  · rintro ⟨hm, hn⟩
    refine ⟨hm, decide_eq_true ?_⟩
    intro hc
    rcases (mem_targetsLabels hwf).mp hc with ⟨u, w, hE⟩
    exact hn u w hE

lemma nodes_without_incoming_nodup {g : Wdgraph} (hwf : WF g) :
    (get_nodes_without_incoming g).Nodup :=
  List.Nodup.filter _ hwf.2.2.2.1

/-! ## Label-level edge list, paths and cycles -/

lemma mem_edgeScan {adj : List (List (Nat × ℚ))} {dm : List String} {k : Nat}
    {x y : String} :
    (x, y) ∈ edgeScan adj dm k ↔
      ∃ i r tw, adj[i]? = some r ∧ tw ∈ r ∧ x = labAt dm (k + i) ∧ y = labAt dm tw.1 := by
  induction adj generalizing k with
  | nil => simp [edgeScan]
  | cons r rest ih =>
    simp only [edgeScan, List.mem_append]
    constructor
    · intro hm
      rcases hm with hm | hm
      · rcases List.mem_map.mp hm with ⟨tw, htw, heq⟩
        refine ⟨0, r, tw, by simp, htw, ?_, ?_⟩
        · have := (congrArg Prod.fst heq).symm
          simpa using this
        · exact (congrArg Prod.snd heq).symm
      · rcases ih.mp hm with ⟨i, r2, tw, hir, htw, hx, hy⟩
        refine ⟨i + 1, r2, tw, by simpa using hir, htw, ?_, hy⟩
        rw [hx]
        have : k + 1 + i = k + (i + 1) := by omega
        rw [this]
    · rintro ⟨i, r2, tw, hir, htw, hx, hy⟩
      cases i with
      | zero =>
        simp only [List.getElem?_cons_zero, Option.some_inj] at hir
        refine Or.inl (List.mem_map.mpr ⟨tw, by rw [← hir] at htw; exact htw, ?_⟩)
        simp only [Prod.mk.injEq]
        constructor
        · rw [hx]; simp
        · exact hy.symm
      | succ j =>
        simp only [List.getElem?_cons_succ] at hir
        refine Or.inr (ih.mpr ⟨j, r2, tw, hir, htw, ?_, hy⟩)
        rw [hx]
        have : k + (j + 1) = k + 1 + j := by omega
        rw [this]

lemma mem_labelEdges {g : Wdgraph} (hwf : WF g) {x y : String} :
    (x, y) ∈ labelEdges g ↔ ∃ w, Edge g x y w := by
  unfold labelEdges
  rw [mem_edgeScan]
  constructor
  · rintro ⟨i, r, tw, hir, htw, hx, hy⟩
    have hilt : i < g.adj_list.length := by
      rcases List.getElem?_eq_some_iff.mp hir with ⟨hlt, _⟩
      exact hlt
    have hlen : i < g.len := by
      have := hwf.2.1
      omega
    have hrow : row g i = r := by
      rw [row, rowAt_eq_getElem hilt]
      rcases List.getElem?_eq_some_iff.mp hir with ⟨_, hr2⟩
      exact hr2
    have htlt : tw.1 < g.len := by
      have hmem2 : tw ∈ row g i := by rw [hrow]; exact htw
      exact wf_row_targets hwf hmem2
    refine ⟨tw.2, i, tw.1, ?_, ?_, ?_⟩
    · rw [hx]
      have : (0 : Nat) + i = i := by omega
      rw [this]
      exact wf_labAt_lookup hwf hlen
    · rw [hy]
      exact wf_labAt_lookup hwf htlt
    · rw [hrow]
      simpa using htw
  · rintro ⟨w, a, b, ha, hb, hm⟩
    have halt : a < g.adj_list.length := by
      have := wf_lookup_lt hwf ha
      have := hwf.2.1
      omega
    refine ⟨a, row g a, (b, w), ?_, hm, ?_, ?_⟩
    · rw [row, rowAt_eq_getElem halt]
      exact List.getElem?_eq_getElem halt
    · have : (0 : Nat) + a = a := by omega
      rw [this]
      exact (wf_lookup_labAt hwf ha).symm
    · exact (wf_lookup_labAt hwf hb).symm

lemma edgeSeq_mono {E E2 : List (String × String)} (hsub : ∀ p ∈ E, p ∈ E2)
    {u v : String} (h : EdgeSeq E u v) : EdgeSeq E2 u v := by
  induction h with
  | single hm => exact EdgeSeq.single (hsub _ hm)
  | cons hm _ ih => exact EdgeSeq.cons (hsub _ hm) ih

lemma edgeSeq_first_edge {E : List (String × String)} {u v : String}
    (h : EdgeSeq E u v) : ∃ y, (u, y) ∈ E := by
  cases h with
  | single hm => exact ⟨v, hm⟩
  | cons hm _ => exact ⟨_, hm⟩

/-- If no edge target is also an edge source, the graph has no directed cycle:
walks have length one, and a one-edge cycle would make its node both. -/
lemma noCycle_of_targets_not_sources {E : List (String × String)}
    (h : ∀ p ∈ E, p.2 ∉ E.map Prod.fst) : ¬ HasCycle E := by
  rintro ⟨u, hseq⟩
  cases hseq with
  | single hm =>
    exact h (u, u) hm (List.mem_map.mpr ⟨(u, u), hm, rfl⟩)
  | cons hm hrest =>
    rcases edgeSeq_first_edge hrest with ⟨y, hy⟩
    exact h _ hm (List.mem_map.mpr ⟨_, hy, rfl⟩)

lemma edgeSeq_flat_mem {E : List (String × String)}
    (h : ∀ p ∈ E, p.2 ∉ E.map Prod.fst) {u v : String}
    (hseq : EdgeSeq E u v) : (u, v) ∈ E := by
  cases hseq with
  | single hm => exact hm
  | cons hm hrest =>
    rcases edgeSeq_first_edge hrest with ⟨y, hy⟩
    exact absurd (List.mem_map.mpr ⟨_, hy, rfl⟩) (h _ hm)

/-! ## Probability rescaling preserves row structure -/

lemma probRowStep_map_fst (total : ℚ) (r : List (Nat × ℚ)) (i : Nat) :
    (probRowStep total r i).map Prod.fst = r.map Prod.fst := by
  unfold probRowStep
  cases h : r.get? i with
  | none => rfl
  | some tw =>
    have hm : tw ∈ r := List.get?_mem h
    exact rawSetRow_map_fst_present _ (List.mem_map.mpr ⟨tw, hm, rfl⟩)

lemma foldl_probRowStep_map_fst (total : ℚ) (l : List Nat) (r : List (Nat × ℚ)) :
    ((l.foldl (probRowStep total) r).map Prod.fst) = r.map Prod.fst := by
  induction l generalizing r with
  | nil => rfl
  | cons i rest ih =>
    rw [List.foldl_cons, ih, probRowStep_map_fst]

lemma probRow_map_fst (r : List (Nat × ℚ)) (total : ℚ) :
    (probRow r total).map Prod.fst = r.map Prod.fst :=
  foldl_probRowStep_map_fst total _ r

lemma cpgAux_wf {g : Wdgraph} (hwf : WF g) (srcs : List Nat) : WF (cpgAux g srcs).1 := by
  induction srcs generalizing g with
  | nil => exact hwf
  | cons src rest ih =>
    unfold cpgAux
    by_cases hz : ((row g src).map Prod.snd).sum = 0 ∧ row g src ≠ []
    · rw [if_pos hz]
      exact hwf
    · rw [if_neg hz]
      refine ih ?_
      rcases hwf with ⟨hdl, hal, hh, hnd, hrows⟩
      refine ⟨hdl, by simpa [modifyRow_length] using hal, hh, hnd, ?_⟩
      intro r hr
      rcases mem_modifyRow hr with hr | ⟨r0, hr0, hreq⟩
      · exact hrows r hr
      · rcases hrows r0 hr0 with ⟨ht, hn⟩
        rw [hreq]
        constructor
        · intro tw htw
          have hfst : tw.1 ∈ (probRow r0 _).map Prod.fst := List.mem_map.mpr ⟨tw, htw, rfl⟩
          rw [probRow_map_fst] at hfst
          rcases List.mem_map.mp hfst with ⟨tw0, htw0, hfeq⟩
          rw [← hfeq]
          exact ht tw0 htw0
        · rw [probRow_map_fst]
          exact hn

lemma create_probability_graph_wf {g : Wdgraph} (hwf : WF g) :
    WF (create_probability_graph g).1 :=
  cpgAux_wf hwf _

/-! ## Remove through the Except interface -/

lemma remove_edge_ok_edge_exists {g g2 : Wdgraph} {u v : String}
    (h : remove_edge g u v = Except.ok g2) : ∃ w, Edge g u v w := by
  cases hu : alookup g.hashmap u with
  | none => rw [remove_edge_red_unreg_left hu] at h; cases h
  | some n1 =>
    cases hv : alookup g.hashmap v with
    | none => rw [remove_edge_red_unreg_right hu hv] at h; cases h
    | some n2 =>
      rw [remove_edge_red hu hv] at h
      cases hl : lastMatch (row g n1) n2 with
      | none => rw [hl] at h; cases h
      | some p =>
        rcases lastMatch_some_mem hl with ⟨hpmem, hpf⟩
        refine ⟨p.2, n1, n2, hu, hv, ?_⟩
        have hpeq : p = (n2, p.2) := by
          rcases p with ⟨pt, pw⟩
          simp only [Prod.mk.injEq]
          exact ⟨hpf, trivial⟩
        rw [← hpeq]
        exact hpmem

lemma remove_edge_ok_wf {g g2 : Wdgraph} {u v : String} (hwf : WF g)
    (h : remove_edge g u v = Except.ok g2) : WF g2 := by
  rcases remove_edge_ok_edge_exists h with ⟨w, hE⟩
  rcases remove_edge_ok_of_edge hwf hE with ⟨g3, hok, _, _, _, hwf3, _, _⟩
  rw [h] at hok
  injection hok with heq
  rw [heq]
  exact hwf3

/-! ## Measure and error lemmas for the Kahn loop -/

lemma remove_edge_ok_totalEdges {g g2 : Wdgraph} {u v : String}
    (h : remove_edge g u v = Except.ok g2) : totalEdges g2 + 1 = totalEdges g := by
  cases hu : alookup g.hashmap u with
  | none => rw [remove_edge_red_unreg_left hu] at h; cases h
  | some n1 =>
    cases hv : alookup g.hashmap v with
    | none => rw [remove_edge_red_unreg_right hu hv] at h; cases h
    | some n2 =>
      rw [remove_edge_red hu hv] at h
      cases hl : lastMatch (row g n1) n2 with
      | none => rw [hl] at h; cases h
      | some p =>
        rw [hl] at h
        injection h with h2
        rcases lastMatch_some_mem hl with ⟨hpmem, -⟩
        have hn1 : n1 < g.adj_list.length := by
          by_contra hge
          rw [row, rowAt_oob (by omega)] at hpmem
          simp at hpmem
        rw [← h2]
        show ((modifyRow g.adj_list n1 (fun r => removeFirstEq r p)).map List.length).sum + 1 =
          (g.adj_list.map List.length).sum
        have hs : ((modifyRow g.adj_list n1 (fun r => removeFirstEq r p)).map List.length).sum +
            (rowAt g.adj_list n1).length =
            (g.adj_list.map List.length).sum + (removeFirstEq (rowAt g.adj_list n1) p).length :=
          sum_lengths_modifyRow (fun r => removeFirstEq r p) hn1
        have hl2 : (removeFirstEq (rowAt g.adj_list n1) p).length + 1 =
            (rowAt g.adj_list n1).length :=
          removeFirstEq_length hpmem
        omega

lemma remove_edge_ok_spec {g g2 : Wdgraph} {u v : String} (hwf : WF g)
    (h : remove_edge g u v = Except.ok g2) :
    g2.hashmap = g.hashmap ∧ g2.directmap = g.directmap ∧ g2.len = g.len ∧
    WF g2 ∧ totalEdges g2 + 1 = totalEdges g ∧
    (∀ x y w2, Edge g2 x y w2 ↔ Edge g x y w2 ∧ ¬(x = u ∧ y = v)) := by
  rcases remove_edge_ok_edge_exists h with ⟨w, hE⟩
  rcases remove_edge_ok_of_edge hwf hE with ⟨g3, hok, h1, h2, h3, h4, h5, h6⟩
  rw [h] at hok
  injection hok with heq
  rw [heq]
  exact ⟨h1, h2, h3, h4, h5, h6⟩

lemma get_outneighbors_error_msg {g : Wdgraph} {x : String} {e : String}
    (h : get_outneighbors g x = Except.error e) : e = unregMsg := by
  cases hx : alookup g.hashmap x with
  | none =>
    rw [get_outneighbors_red_unreg hx] at h
    injection h with h2
    exact h2.symm
  | some n =>
    rw [get_outneighbors_red hx] at h
    cases h

lemma kahnStep_measure {n : String} :
    ∀ (outs : List (String × ℚ)) (G : Wdgraph) (S : List String) {G2 : Wdgraph}
      {S2 : List String}, kahnStep n G S outs = Except.ok (G2, S2) →
      totalEdges G2 + S2.length ≤ totalEdges G + S.length := by
  intro outs
  induction outs with
  | nil =>
    intro G S G2 S2 h
    unfold kahnStep at h
    injection h with h2
    rw [show G2 = G from congrArg Prod.fst h2.symm,
      show S2 = S from congrArg Prod.snd h2.symm]
  | cons mw outs ih =>
    intro G S G2 S2 h
    rcases mw with ⟨m, wq⟩
    unfold kahnStep at h
    cases hrem : remove_edge G n m with
    | error e => rw [hrem] at h; cases h
    | ok G1 =>
      rw [hrem] at h
      have h2 : (match get_inneighbors G1 m with
          | Except.error e => Except.error e
          | Except.ok inns =>
            kahnStep n G1 (if inns = [] then if m ∈ S then S else S ++ [m] else S) outs) =
          Except.ok (G2, S2) := h
      cases hinns : get_inneighbors G1 m with
      | error e => rw [hinns] at h2; cases h2
      | ok inns =>
        rw [hinns] at h2
        have hm := remove_edge_ok_totalEdges hrem
        have hrec := ih G1 _ h2
        have hslen : (if inns = [] then (if m ∈ S then S else S ++ [m]) else S).length ≤
            S.length + 1 := by
          by_cases he : inns = []
          · by_cases hm2 : m ∈ S
            · simp [he, hm2]
            · simp [he, hm2]
          · simp [he]
        omega

lemma kahnStep_error_msg {n : String} :
    ∀ (outs : List (String × ℚ)) (G : Wdgraph) (S : List String) {e : String},
      kahnStep n G S outs = Except.error e → e = unregMsg ∨ e = noEdgeMsg := by
  intro outs
  induction outs with
  | nil =>
    intro G S e h
    unfold kahnStep at h
    cases h
  | cons mw outs ih =>
    intro G S e h
    rcases mw with ⟨m, wq⟩
    unfold kahnStep at h
    cases hrem : remove_edge G n m with
    | error e2 =>
      rw [hrem] at h
      injection h with h2
      rw [← h2]
      exact remove_edge_error_msg hrem
    | ok G1 =>
      rw [hrem] at h
      have h3 : (match get_inneighbors G1 m with
          | Except.error e => Except.error e
          | Except.ok inns =>
            kahnStep n G1 (if inns = [] then if m ∈ S then S else S ++ [m] else S) outs) =
          Except.error e := h
      cases hinns : get_inneighbors G1 m with
      | error e2 =>
        rw [hinns] at h3
        injection h3 with h4
        rw [← h4]
        exact Or.inl (get_inneighbors_error_msg hinns)
      | ok inns =>
        rw [hinns] at h3
        exact ih G1 _ h3

lemma kahnLoopF_ne_fuelMsg :
    ∀ (fuel : Nat) (G : Wdgraph) (S L : List String),
      totalEdges G + S.length < fuel → kahnLoopF fuel G S L ≠ Except.error fuelMsg := by
  intro fuel
  induction fuel with
  | zero =>
    intro G S L hlt
    omega
  | succ fuel ih =>
    intro G S L hlt
    cases S with
    | nil =>
      show (if all_edges G = [] then Except.ok L else Except.error cycleMsg) ≠
        Except.error fuelMsg
      by_cases hae : all_edges G = []
      · rw [if_pos hae]
        intro hc
        cases hc
      · rw [if_neg hae]
        intro hc
        injection hc with hc2
        exact absurd hc2 (by decide)
    | cons n rest =>
      cases hout : get_outneighbors G n with
      | error e =>
        have hred : kahnLoopF (fuel + 1) G (n :: rest) L = Except.error e := by
          show (match get_outneighbors G n with
            | Except.error e => Except.error e
            | Except.ok outs =>
              match kahnStep n G rest outs with
              | Except.error e => Except.error e
              | Except.ok GS => kahnLoopF fuel GS.1 GS.2 (L ++ [n])) = Except.error e
          rw [hout]
        rw [hred]
        intro hc
        injection hc with hc2
        rw [get_outneighbors_error_msg hout] at hc2
        exact absurd hc2 (by decide)
      | ok outs =>
        cases hstep : kahnStep n G rest outs with
        | error e =>
          have hred : kahnLoopF (fuel + 1) G (n :: rest) L = Except.error e := by
            show (match get_outneighbors G n with
              | Except.error e => Except.error e
              | Except.ok outs =>
                match kahnStep n G rest outs with
                | Except.error e => Except.error e
                | Except.ok GS => kahnLoopF fuel GS.1 GS.2 (L ++ [n])) = Except.error e
            rw [hout]
            show (match kahnStep n G rest outs with
              | Except.error e => Except.error e
              | Except.ok GS => kahnLoopF fuel GS.1 GS.2 (L ++ [n])) = Except.error e
            rw [hstep]
          rw [hred]
          intro hc
          injection hc with hc2
          rcases kahnStep_error_msg outs G rest hstep with hmsg | hmsg <;>
            rw [hmsg] at hc2 <;> exact absurd hc2 (by decide)
        | ok GS =>
          have hred : kahnLoopF (fuel + 1) G (n :: rest) L =
              kahnLoopF fuel GS.1 GS.2 (L ++ [n]) := by
            show (match get_outneighbors G n with
              | Except.error e => Except.error e
              | Except.ok outs =>
                match kahnStep n G rest outs with
                | Except.error e => Except.error e
                | Except.ok GS => kahnLoopF fuel GS.1 GS.2 (L ++ [n])) = _
            rw [hout]
            show (match kahnStep n G rest outs with
              | Except.error e => Except.error e
              | Except.ok GS => kahnLoopF fuel GS.1 GS.2 (L ++ [n])) = _
            rw [hstep]
          rw [hred]
          rcases GS with ⟨G2, S2⟩
          have hmeas := kahnStep_measure outs G rest hstep
          refine ih G2 S2 (L ++ [n]) ?_
          have : rest.length + 1 = (n :: rest).length := by simp
          omega

lemma kahns_algorithm_eq (g : Wdgraph) :
    kahns_algorithm g =
      kahnLoopF (totalEdges g + (get_nodes_without_incoming g).length + 1) g
        (get_nodes_without_incoming g) [] := rfl

lemma kahns_algorithm_ne_fuelMsg (g : Wdgraph) :
    kahns_algorithm g ≠ Except.error fuelMsg := by
  rw [kahns_algorithm_eq]
  exact kahnLoopF_ne_fuelMsg _ g _ [] (by omega)

/-! ## Before: position ordering helper lemmas -/

lemma before_append_right {u v : String} {L l : List String} (h : Before u v L) :
    Before u v (L ++ l) := by
  rcases h with ⟨i, j, hij, hi, hj⟩
  have hjlt : j < L.length := by
    rcases List.getElem?_eq_some_iff.mp hj with ⟨hlt, -⟩
    exact hlt
  have hilt : i < L.length := by omega
  refine ⟨i, j, hij, ?_, ?_⟩
  · rw [List.getElem?_append, if_pos hilt]
    exact hi
  · rw [List.getElem?_append, if_pos hjlt]
    exact hj

lemma before_mem_concat {u n : String} {L : List String} (h : u ∈ L) :
    Before u n (L ++ [n]) := by
  rcases List.mem_iff_getElem?.mp h with ⟨i, hi⟩
  have hilt : i < L.length := by
    rcases List.getElem?_eq_some_iff.mp hi with ⟨hlt, -⟩
    exact hlt
  refine ⟨i, L.length, hilt, ?_, ?_⟩
  · rw [List.getElem?_append, if_pos hilt]
    exact hi
  · exact List.getElem?_concat_length L n

lemma nodup_getElem?_inj {L : List String} (hnd : L.Nodup) {i j : Nat} {x : String}
    (hi : L[i]? = some x) (hj : L[j]? = some x) : i = j := by
  rcases List.getElem?_eq_some_iff.mp hi with ⟨hilt, hieq⟩
  rcases List.getElem?_eq_some_iff.mp hj with ⟨hjlt, hjeq⟩
  have heq : L[i] = L[j] := by rw [hieq, hjeq]
  exact (List.Nodup.getElem_inj_iff hnd).mp heq

lemma before_trans {u w v : String} {L : List String} (hnd : L.Nodup)
    (h1 : Before u w L) (h2 : Before w v L) : Before u v L := by
  rcases h1 with ⟨i, j, hij, hi, hj⟩
  rcases h2 with ⟨j2, k, hjk, hj2, hk⟩
  have : j = j2 := nodup_getElem?_inj hnd hj hj2
  exact ⟨i, k, by omega, hi, hk⟩

lemma before_irrefl {u : String} {L : List String} (hnd : L.Nodup) :
    ¬ Before u u L := by
  rintro ⟨i, j, hij, hi, hj⟩
  have : i = j := nodup_getElem?_inj hnd hi hj
  omega

lemma before_edgeSeq {E : List (String × String)} {L : List String} (hnd : L.Nodup)
    (hord : ∀ u v, (u, v) ∈ E → Before u v L) {u v : String}
    (h : EdgeSeq E u v) : Before u v L := by
  induction h with
  | single hm => exact hord _ _ hm
  | cons hm _ ih => exact before_trans hnd (hord _ _ hm) ih

lemma final_not_hasCycle {E : List (String × String)} {L : List String} (hnd : L.Nodup)
    (hord : ∀ u v, (u, v) ∈ E → Before u v L) : ¬ HasCycle E := by
  rintro ⟨u, hseq⟩
  exact before_irrefl hnd (before_edgeSeq hnd hord hseq)

/-- From a nonempty edge list in which every edge source also has an incoming
edge, a cycle can be extracted: iterate the incoming-edge choice backward and
apply the pigeonhole principle on the finitely many sources. -/
lemma hasCycle_of_sources_targeted {E : List (String × String)} {p0 : String × String}
    (hp0 : p0 ∈ E) (h : ∀ p ∈ E, ∃ u, (u, p.1) ∈ E) : HasCycle E := by
  classical
  choose f hf using h
  let step : { p : String × String // p ∈ E } → { p : String × String // p ∈ E } :=
    fun q => ⟨(f q.1 q.2, q.1.1), hf q.1 q.2⟩
  let e : Nat → { p : String × String // p ∈ E } := fun k => step^[k] ⟨p0, hp0⟩
  let s : Nat → String := fun k => (e k).1.1
  have hchain : ∀ k, (s (k + 1), s k) ∈ E := by
    intro k
    have he : e (k + 1) = step (e k) := Function.iterate_succ_apply' step k ⟨p0, hp0⟩
    have : (e (k + 1)).1 = (f (e k).1 (e k).2, (e k).1.1) := by rw [he]
    show ((e (k + 1)).1.1, (e k).1.1) ∈ E
    rw [this]
    exact hf (e k).1 (e k).2
  have hseq : ∀ i j : Nat, i < j → EdgeSeq E (s j) (s i) := by
    intro i j hij
    induction j with
    | zero => omega
    | succ j2 ih =>
      by_cases hj : i = j2
      · rw [← hj]
        exact EdgeSeq.single (hchain i)
      · have hij2 : i < j2 := by omega
        exact EdgeSeq.cons (hchain j2) (ih hij2)
  have hmapsto : ∀ k : Nat, s k ∈ (E.map Prod.fst).toFinset := by
    intro k
    rw [List.mem_toFinset]
    exact List.mem_map.mpr ⟨(e k).1, (e k).2, rfl⟩
  have hcard : (E.map Prod.fst).toFinset.card < (Finset.range ((E.map Prod.fst).toFinset.card + 1)).card := by
    rw [Finset.card_range]
    omega
  rcases Finset.exists_ne_map_eq_of_card_lt_of_maps_to hcard
    (fun k _ => hmapsto k) with ⟨i, -, j, -, hne, heq⟩
  rcases Nat.lt_or_ge i j with hij | hij
  · exact ⟨s i, heq ▸ hseq i j hij⟩
  · have hji : j < i := by omega
    exact ⟨s j, heq ▸ hseq j i hji⟩

/-! ## The Kahn inner step preserves the invariant -/

lemma kahnStep_inv (g0 : Wdgraph) (n : String) (L : List String) :
    ∀ (outs : List (String × ℚ)) (G : Wdgraph) (S : List String),
      G.hashmap = g0.hashmap → G.directmap = g0.directmap → G.len = g0.len → WF G →
      (∀ u v w, Edge G u v w → Edge g0 u v w) →
      (∀ m w, Edge G n m w ↔ (m, w) ∈ outs) →
      (outs.map Prod.fst).Nodup →
      (∀ u v w, Edge g0 u v w → Edge G u v w ∨ u ∈ L ++ [n]) →
      (∀ u v w, Edge G u v w → v ∉ L ++ [n] ∧ v ∉ S) →
      (∀ x, x ∈ g0.directmap → (∀ u w, ¬ Edge G u x w) → x ∈ L ++ [n] ∨ x ∈ S) →
      ((L ++ [n]) ++ S).Nodup →
      (∀ x, x ∈ (L ++ [n]) ++ S → x ∈ g0.directmap) →
      (∀ k, k ∈ L → ∀ v w, ¬ Edge G k v w) →
      (∀ u v w, Edge g0 u v w → v ∈ L ++ [n] → Before u v (L ++ [n])) →
      ∃ G2 S2, kahnStep n G S outs = Except.ok (G2, S2) ∧ KInv g0 G2 S2 (L ++ [n]) := by
  intro outs
  induction outs with
  | nil =>
    intro G S hhm hdm hln hwf hsub houts _hnodout hrem htgt hzero hnd hmem houtL hord
    refine ⟨G, S, rfl, hhm, hdm, hln, hwf, hsub, hrem, htgt, hzero, hnd, hmem, ?_, hord⟩
    intro k hk v w hE
    rcases List.mem_append.mp hk with hk | hk
    · exact houtL k hk v w hE
    · rw [List.mem_singleton] at hk
      rw [hk] at hE
      exact absurd ((houts v w).mp hE) (List.not_mem_nil (v, w))
  | cons mw outs ih =>
    intro G S hhm hdm hln hwf hsub houts hnodout hrem htgt hzero hnd hmem houtL hord
    rcases mw with ⟨m, wq⟩
    rw [List.map_cons] at hnodout
    rcases List.nodup_cons.mp hnodout with ⟨hmf, hndtail⟩
    have hEm : Edge G n m wq := (houts m wq).mpr (List.mem_cons.mpr (Or.inl rfl))
    have hmS : m ∉ S := (htgt n m wq hEm).2
    have hmLn : m ∉ L ++ [n] := (htgt n m wq hEm).1
    have hmG : m ∈ G.directmap := (edge_mem_directmap hwf hEm).2
    have hmg0 : m ∈ g0.directmap := by rw [← hdm]; exact hmG
    rcases remove_edge_ok_of_edge hwf hEm with ⟨G1, hok, hh1, hd1, hl1, hwf1, hte1, hEe1⟩
    rcases wf_mem_lookup hwf1 (by rw [hd1]; exact hmG) with ⟨nm, hnm⟩
    have hinns := get_inneighbors_red hnm
    have hredstep : kahnStep n G S ((m, wq) :: outs) =
        kahnStep n G1
          (if innerScan G1.adj_list G1.directmap nm 0 = []
            then (if m ∈ S then S else S ++ [m]) else S) outs := by
      show (match remove_edge G n m with
        | Except.error e => Except.error e
        | Except.ok G1 =>
          match get_inneighbors G1 m with
          | Except.error e => Except.error e
          | Except.ok inns =>
            kahnStep n G1 (if inns = [] then if m ∈ S then S else S ++ [m] else S) outs) = _
      rw [hok]
      show (match get_inneighbors G1 m with
        | Except.error e => Except.error e
        | Except.ok inns =>
          kahnStep n G1 (if inns = [] then if m ∈ S then S else S ++ [m] else S) outs) = _
      rw [hinns]
    rw [hredstep]
    have hsub1 : ∀ u v w, Edge G1 u v w → Edge g0 u v w :=
      fun u v w hE => hsub u v w ((hEe1 u v w).mp hE).1
    have houts1 : ∀ m2 w, Edge G1 n m2 w ↔ (m2, w) ∈ outs := by
      intro m2 w
      rw [hEe1 n m2 w]
      constructor
      · rintro ⟨hE, hne⟩
        have hmem2 := (houts m2 w).mp hE
        rcases List.mem_cons.mp hmem2 with hc | hc
        · exact absurd ⟨rfl, congrArg Prod.fst hc⟩ hne
        · exact hc
      · intro hmem2
        refine ⟨(houts m2 w).mpr (List.mem_cons.mpr (Or.inr hmem2)), ?_⟩
        rintro ⟨-, hm2m⟩
        rw [hm2m] at hmem2
        exact hmf (List.mem_map.mpr ⟨(m, w), hmem2, rfl⟩)
    have hrem1 : ∀ u v w, Edge g0 u v w → Edge G1 u v w ∨ u ∈ L ++ [n] := by
      intro u v w hE0
      rcases hrem u v w hE0 with hEG | hL
      · by_cases hc : u = n ∧ v = m
        · exact Or.inr (by rw [hc.1]; exact List.mem_append.mpr (Or.inr (by simp)))
        · exact Or.inl ((hEe1 u v w).mpr ⟨hEG, hc⟩)
      · exact Or.inr hL
    have houtL1 : ∀ k, k ∈ L → ∀ v w, ¬ Edge G1 k v w :=
      fun k hk v w hE => houtL k hk v w ((hEe1 k v w).mp hE).1
    by_cases hnil : innerScan G1.adj_list G1.directmap nm 0 = []
    · rw [if_pos hnil, if_neg hmS]
      have hNoIn : ∀ u w, ¬ Edge G1 u m w := (innerScan_nil_iff hwf1 hnm).mp hnil
      refine ih G1 (S ++ [m]) (by rw [hh1, hhm]) (by rw [hd1, hdm]) (by rw [hl1, hln])
        hwf1 hsub1 houts1 hndtail hrem1 ?_ ?_ ?_ ?_ houtL1 hord
      · intro u v w hE1
        have hEG := ((hEe1 u v w).mp hE1).1
        refine ⟨(htgt u v w hEG).1, ?_⟩
        intro hvS
        rcases List.mem_append.mp hvS with hvS | hvS
        · exact (htgt u v w hEG).2 hvS
        · rw [List.mem_singleton] at hvS
          rw [hvS] at hE1
          exact hNoIn u w hE1
      · intro x hx hnoIn1
        by_cases hever : ∀ u w, ¬ Edge G u x w
        · rcases hzero x hx hever with h | h
          · exact Or.inl h
          · exact Or.inr (List.mem_append.mpr (Or.inl h))
        · push_neg at hever
          rcases hever with ⟨u, w, hE⟩
          have hnotG1 : ¬ Edge G1 u x w := hnoIn1 u w
          have hc : u = n ∧ x = m := by
            by_contra hcc
            exact hnotG1 ((hEe1 u x w).mpr ⟨hE, hcc⟩)
          refine Or.inr (List.mem_append.mpr (Or.inr ?_))
          rw [hc.2]
          simp
      · have hassoc : (L ++ [n]) ++ (S ++ [m]) = ((L ++ [n]) ++ S) ++ [m] :=
          (List.append_assoc _ _ _).symm
        rw [hassoc]
        refine List.Nodup.append hnd (List.nodup_singleton m) ?_
        intro a ha hb
        rw [List.mem_singleton] at hb
        rw [hb] at ha
        rcases List.mem_append.mp ha with ha | ha
        · exact hmLn ha
        · exact hmS ha
      · intro x hx
        rcases List.mem_append.mp hx with hx | hx
        · exact hmem x (List.mem_append.mpr (Or.inl hx))
        · rcases List.mem_append.mp hx with hx | hx
          · exact hmem x (List.mem_append.mpr (Or.inr hx))
          · rw [List.mem_singleton] at hx
            rw [hx]
            exact hmg0
    · rw [if_neg hnil]
      refine ih G1 S (by rw [hh1, hhm]) (by rw [hd1, hdm]) (by rw [hl1, hln])
        hwf1 hsub1 houts1 hndtail hrem1 ?_ ?_ ?_ ?_ houtL1 hord
      · intro u v w hE1
        have hEG := ((hEe1 u v w).mp hE1).1
        exact ⟨(htgt u v w hEG).1, (htgt u v w hEG).2⟩
      · intro x hx hnoIn1
        by_cases hever : ∀ u w, ¬ Edge G u x w
        · exact hzero x hx hever
        · push_neg at hever
          rcases hever with ⟨u, w, hE⟩
          have hnotG1 : ¬ Edge G1 u x w := hnoIn1 u w
          have hc : u = n ∧ x = m := by
            by_contra hcc
            exact hnotG1 ((hEe1 u x w).mpr ⟨hE, hcc⟩)
          exfalso
          apply hnil
          refine (innerScan_nil_iff hwf1 hnm).mpr ?_
          rw [← hc.2]
          exact hnoIn1
      · exact hnd
      · intro x hx
        exact hmem x hx

/-! ## The Kahn frontier loop: soundness and completeness -/

lemma kahnLoopF_main (g0 : Wdgraph) (hwf0 : WF g0) :
    ∀ (fuel : Nat) (G : Wdgraph) (S L : List String),
      totalEdges G + S.length < fuel → KInv g0 G S L →
      (∃ L2, kahnLoopF fuel G S L = Except.ok L2 ∧ KFinal g0 L2) ∨
      (kahnLoopF fuel G S L = Except.error cycleMsg ∧ HasCycle (labelEdges g0)) := by
  intro fuel
  induction fuel with
  | zero =>
    intro G S L hlt _
    omega
  | succ fuel ih =>
    intro G S L hlt hinv
    cases S with
    | nil =>
      have hred : kahnLoopF (fuel + 1) G [] L =
          (if all_edges G = [] then Except.ok L else Except.error cycleMsg) := rfl
      rw [hred]
      by_cases hae : all_edges G = []
      · rw [if_pos hae]
        have hiff : ∀ x, x ∈ L ↔ x ∈ g0.directmap := by
          intro x
          constructor
          · intro hx
            exact hinv.mem x (List.mem_append.mpr (Or.inl hx))
          · intro hx
            have hno : ∀ u w, ¬ Edge G u x w :=
              fun u w => (all_edges_nil_iff hinv.wf).mp hae u x w
            rcases hinv.zero x hx hno with h | h
            · exact h
            · simp at h
        refine Or.inl ⟨L, rfl, ?_, hiff, ?_⟩
        · have h := hinv.nd
          simpa using h
        · intro u v huv
          rcases (mem_labelEdges hwf0).mp huv with ⟨w, hE0⟩
          have hv : v ∈ g0.directmap := (edge_mem_directmap hwf0 hE0).2
          exact hinv.ord u v w hE0 ((hiff v).mpr hv)
      · rw [if_neg hae]
        refine Or.inr ⟨rfl, ?_⟩
        have hex : ∃ u v w, Edge G u v w := by
          by_contra hno
          push_neg at hno
          exact hae ((all_edges_nil_iff hinv.wf).mpr hno)
        rcases hex with ⟨u, v, w, hE⟩
        have hp0 : (u, v) ∈ labelEdges G := (mem_labelEdges hinv.wf).mpr ⟨w, hE⟩
        have hsrc : ∀ p ∈ labelEdges G, ∃ u2, (u2, p.1) ∈ labelEdges G := by
          rintro ⟨p1, p2⟩ hp
          rcases (mem_labelEdges hinv.wf).mp hp with ⟨w2, hE2⟩
          have hnotL : p1 ∉ L := fun hc => hinv.out p1 hc p2 w2 hE2
          have hpd : p1 ∈ g0.directmap := by
            have h2 := (edge_mem_directmap hinv.wf hE2).1
            rw [← hinv.dm]
            exact h2
          by_cases hin : ∀ u2 w3, ¬ Edge G u2 p1 w3
          · rcases hinv.zero p1 hpd hin with h | h
            · exact absurd h hnotL
            · simp at h
          · push_neg at hin
            rcases hin with ⟨u2, w3, hE3⟩
            exact ⟨u2, (mem_labelEdges hinv.wf).mpr ⟨w3, hE3⟩⟩
        rcases hasCycle_of_sources_targeted hp0 hsrc with ⟨c, hseq⟩
        refine ⟨c, edgeSeq_mono ?_ hseq⟩
        rintro ⟨x, y⟩ hp
        rcases (mem_labelEdges hinv.wf).mp hp with ⟨w2, hE2⟩
        exact (mem_labelEdges hwf0).mpr ⟨w2, hinv.sub _ _ _ hE2⟩
    | cons n rest =>
      have hn_mem : n ∈ g0.directmap :=
        hinv.mem n (List.mem_append.mpr (Or.inr (by simp)))
      have hnG : n ∈ G.directmap := by
        rw [hinv.dm]
        exact hn_mem
      rcases wf_mem_lookup hinv.wf hnG with ⟨hn, hlook⟩
      have hout := get_outneighbors_red hlook
      have houts : ∀ m w, Edge G n m w ↔
          (m, w) ∈ (row G hn).map (fun tw => (labAt G.directmap tw.1, tw.2)) :=
        fun m w => (get_outneighbors_mem hinv.wf hlook).symm
      have hassoc : (L ++ [n]) ++ rest = L ++ (n :: rest) := by
        rw [List.append_assoc]
        rfl
      have htgt2 : ∀ u v w, Edge G u v w → v ∉ L ++ [n] ∧ v ∉ rest := by
        intro u v w hE
        rcases hinv.tgt u v w hE with ⟨hvL, hvS⟩
        constructor
        · intro hc
          rcases List.mem_append.mp hc with hc | hc
          · exact hvL hc
          · rw [List.mem_singleton] at hc
            rw [hc] at hvS
            exact hvS (List.mem_cons.mpr (Or.inl rfl))
        · intro hc
          exact hvS (List.mem_cons.mpr (Or.inr hc))
      have hzero2 : ∀ x, x ∈ g0.directmap → (∀ u w, ¬ Edge G u x w) →
          x ∈ L ++ [n] ∨ x ∈ rest := by
        intro x hx hno
        rcases hinv.zero x hx hno with h | h
        · exact Or.inl (List.mem_append.mpr (Or.inl h))
        · rcases List.mem_cons.mp h with h | h
          · exact Or.inl (List.mem_append.mpr (Or.inr (by rw [h]; simp)))
          · exact Or.inr h
      have hord2 : ∀ u v w, Edge g0 u v w → v ∈ L ++ [n] → Before u v (L ++ [n]) := by
        intro u v w hE0 hv
        rcases List.mem_append.mp hv with hv | hv
        · exact before_append_right (hinv.ord u v w hE0 hv)
        · rw [List.mem_singleton] at hv
          rcases hinv.rem u v w hE0 with hEG | hL
          · exfalso
            rw [hv] at hEG
            exact (hinv.tgt u n w hEG).2 (List.mem_cons.mpr (Or.inl rfl))
          · rw [hv]
            exact before_mem_concat hL
      rcases kahnStep_inv g0 n L
          ((row G hn).map (fun tw => (labAt G.directmap tw.1, tw.2))) G rest
          hinv.hm hinv.dm hinv.ln hinv.wf hinv.sub houts
          (get_outneighbors_fst_nodup hinv.wf hn)
          (fun u v w hE0 => (hinv.rem u v w hE0).imp id
            (fun hL => List.mem_append.mpr (Or.inl hL)))
          htgt2 hzero2 (by rw [hassoc]; exact hinv.nd)
          (fun x hx => hinv.mem x (by rw [← hassoc]; exact hx))
          (fun k hk => hinv.out k hk)
          hord2 with ⟨G2, S2, hstep, hinv2⟩
      have hred : kahnLoopF (fuel + 1) G (n :: rest) L =
          kahnLoopF fuel G2 S2 (L ++ [n]) := by
        show (match get_outneighbors G n with
          | Except.error e => Except.error e
          | Except.ok outs =>
            match kahnStep n G rest outs with
            | Except.error e => Except.error e
            | Except.ok GS => kahnLoopF fuel GS.1 GS.2 (L ++ [n])) = _
        rw [hout]
        show (match kahnStep n G rest
            ((row G hn).map (fun tw => (labAt G.directmap tw.1, tw.2))) with
          | Except.error e => Except.error e
          | Except.ok GS => kahnLoopF fuel GS.1 GS.2 (L ++ [n])) = _
        rw [hstep]
      rw [hred]
      have hmeas := kahnStep_measure _ G rest hstep
      refine ih G2 S2 (L ++ [n]) ?_ hinv2
      have hl2 : (n :: rest).length = rest.length + 1 := by simp
      omega

lemma kahns_initial (g : Wdgraph) (hwf : WF g) :
    KInv g g (get_nodes_without_incoming g) [] := by
  refine ⟨rfl, rfl, rfl, hwf, fun u v w h => h, fun u v w h => Or.inl h, ?_, ?_, ?_, ?_, ?_, ?_⟩
  · intro u v w hE
    refine ⟨by simp, ?_⟩
    intro hc
    rcases (mem_nodes_without_incoming hwf).mp hc with ⟨-, hno⟩
    exact hno u w hE
  · intro x hx hno
    exact Or.inr ((mem_nodes_without_incoming hwf).mpr ⟨hx, hno⟩)
  · have h := nodes_without_incoming_nodup hwf
    simpa using h
  · intro x hx
    rw [List.nil_append] at hx
    exact ((mem_nodes_without_incoming hwf).mp hx).1
  · intro k hk
    simp at hk
  · intro u v w _ hv
    simp at hv

lemma kahns_main (g : Wdgraph) (hwf : WF g) :
    (∃ L, kahns_algorithm g = Except.ok L ∧ KFinal g L) ∨
    (kahns_algorithm g = Except.error cycleMsg ∧ HasCycle (labelEdges g)) := by
  rw [kahns_algorithm_eq]
  exact kahnLoopF_main g hwf _ g _ [] (by omega) (kahns_initial g hwf)

lemma kahns_ok_final {g : Wdgraph} {L : List String} (hwf : WF g)
    (h : kahns_algorithm g = Except.ok L) : KFinal g L := by
  rcases kahns_main g hwf with ⟨L2, hok, hfin⟩ | ⟨herr, -⟩
  · rw [h] at hok
    injection hok with heq
    rw [heq]
    exact hfin
  · rw [h] at herr
    cases herr

lemma kahns_ok_not_hasCycle {g : Wdgraph} {L : List String} (hwf : WF g)
    (h : kahns_algorithm g = Except.ok L) : ¬ HasCycle (labelEdges g) := by
  rcases kahns_ok_final hwf h with ⟨hnd, -, hord⟩
  exact final_not_hasCycle hnd hord

/-! ## Claim C7: reachable states never hold duplicate edges -/

lemma copy_eq (g : Wdgraph) : copy g = g := rfl

lemma execOp_wf {g : Wdgraph} (hwf : WF g) (op : GOp) : WF (execOp g op) := by
  cases op with
  | regOp u => exact register_node_wf hwf u
  | setOp u v w => exact set_edge_wf hwf u v w
  | remOp u v =>
    show WF (match remove_edge g u v with | Except.ok g2 => g2 | Except.error _ => g)
    cases h : remove_edge g u v with
    | ok g2 => exact remove_edge_ok_wf hwf h
    | error e => exact hwf
  | probOp => exact create_probability_graph_wf hwf
  | cpOp => exact hwf

lemma foldl_execOp_wf (ops : List GOp) : ∀ g, WF g → WF (ops.foldl execOp g) := by
  induction ops with
  | nil => exact fun g hwf => hwf
  | cons op rest ih =>
    intro g hwf
    rw [List.foldl_cons]
    exact ih _ (execOp_wf hwf op)

lemma runOps_wf (ops : List GOp) : WF (runOps ops) :=
  foldl_execOp_wf ops emptyWdgraph (by decide)

/-! ## The distance pass: characterization of the clamped maximum -/

lemma distFold_aux (d : String → ℚ) (inns : List (String × ℚ)) : ∀ (a : ℚ),
    a ≤ List.foldl (fun md sw => if md < d sw.1 + sw.2 then d sw.1 + sw.2 else md) a inns ∧
    (∀ p ∈ inns,
      d p.1 + p.2 ≤
        List.foldl (fun md sw => if md < d sw.1 + sw.2 then d sw.1 + sw.2 else md) a inns) ∧
    (List.foldl (fun md sw => if md < d sw.1 + sw.2 then d sw.1 + sw.2 else md) a inns = a ∨
      ∃ p ∈ inns,
        List.foldl (fun md sw => if md < d sw.1 + sw.2 then d sw.1 + sw.2 else md) a inns =
          d p.1 + p.2) := by
  induction inns with
  | nil =>
    intro a
    exact ⟨le_refl a, by simp, Or.inl rfl⟩
  | cons sw tl ih =>
    intro a
    simp only [List.foldl_cons]
    by_cases hc : a < d sw.1 + sw.2
    · rw [if_pos hc]
      obtain ⟨h1, h2, h3⟩ := ih (d sw.1 + sw.2)
      refine ⟨le_trans (le_of_lt hc) h1, ?_, ?_⟩
      · intro p hp
        rcases List.mem_cons.mp hp with heq | htl
        · rw [heq]
          exact h1
        · exact h2 p htl
      · rcases h3 with he | ⟨p, hp, he⟩
        · exact Or.inr ⟨sw, by simp, he⟩
        · exact Or.inr ⟨p, by simp [hp], he⟩
    · rw [if_neg hc]
      obtain ⟨h1, h2, h3⟩ := ih a
      refine ⟨h1, ?_, ?_⟩
      · intro p hp
        rcases List.mem_cons.mp hp with heq | htl
        · rw [heq]
          exact le_trans (not_lt.mp hc) h1
        · exact h2 p htl
      · rcases h3 with he | ⟨p, hp, he⟩
        · exact Or.inl he
        · exact Or.inr ⟨p, by simp [hp], he⟩

lemma distFold_nonneg (d : String → ℚ) (inns : List (String × ℚ)) : 0 ≤ distFold d inns :=
  (distFold_aux d inns 0).1

lemma distFold_ge (d : String → ℚ) {inns : List (String × ℚ)} {p : String × ℚ}
    (hp : p ∈ inns) : d p.1 + p.2 ≤ distFold d inns :=
  (distFold_aux d inns 0).2.1 p hp

lemma distFold_cases (d : String → ℚ) (inns : List (String × ℚ)) :
    distFold d inns = 0 ∨ ∃ p ∈ inns, distFold d inns = d p.1 + p.2 :=
  (distFold_aux d inns 0).2.2

lemma foldl_dist_congr {d1 d2 : String → ℚ} :
    ∀ (inns : List (String × ℚ)) (a : ℚ), (∀ p ∈ inns, d1 p.1 = d2 p.1) →
      List.foldl (fun md sw => if md < d1 sw.1 + sw.2 then d1 sw.1 + sw.2 else md) a inns =
        List.foldl (fun md sw => if md < d2 sw.1 + sw.2 then d2 sw.1 + sw.2 else md) a inns := by
  intro inns
  induction inns with
  | nil =>
    intro a _
    rfl
  | cons sw tl ih =>
    intro a h
    simp only [List.foldl_cons]
    have hsw : d1 sw.1 = d2 sw.1 := h sw (by simp)
    rw [hsw]
    exact ih _ (fun p hp => h p (by simp [hp]))

lemma distFold_congr {d1 d2 : String → ℚ} {inns : List (String × ℚ)}
    (h : ∀ p ∈ inns, d1 p.1 = d2 p.1) : distFold d1 inns = distFold d2 inns :=
  foldl_dist_congr inns 0 h

lemma before_cons {u v a : String} {rest : List String} (h : Before u v (a :: rest)) :
    u = a ∨ Before u v rest := by
  rcases h with ⟨i, j, hij, hi, hj⟩
  cases i with
  | zero =>
    left
    simp only [List.getElem?_cons_zero, Option.some_inj] at hi
    exact hi.symm
  | succ i2 =>
    right
    cases j with
    | zero => omega
    | succ j2 =>
      simp only [List.getElem?_cons_succ] at hi hj
      exact ⟨i2, j2, by omega, hi, hj⟩

lemma before_mem_right {u v : String} {L : List String} (h : Before u v L) : v ∈ L := by
  rcases h with ⟨i, j, _, _, hj⟩
  exact List.mem_iff_getElem?.mpr ⟨j, hj⟩

lemma computeDist_ok (g : Wdgraph) (hwf : WF g) :
    ∀ (L : List String) (d : String → ℚ), (∀ v ∈ L, v ∈ g.directmap) →
      ∃ dist, computeDist g L d = Except.ok dist := by
  intro L
  induction L with
  | nil =>
    intro d _
    exact ⟨d, rfl⟩
  | cons target rest ih =>
    intro d hreg
    rcases wf_mem_lookup hwf (hreg target (by simp)) with ⟨nt, hnt⟩
    rcases ih (fun x => if x = target
        then distFold d (innerScan g.adj_list g.directmap nt 0) else d x)
      (fun v hv => hreg v (by simp [hv])) with ⟨dist, hdist⟩
    refine ⟨dist, ?_⟩
    show (match get_inneighbors g target with
      | Except.error e => Except.error e
      | Except.ok inns =>
        computeDist g rest (fun x => if x = target then distFold d inns else d x)) =
      Except.ok dist
    rw [get_inneighbors_red hnt]
    exact hdist

/-- The main characterization of the distance pass: on a duplicate-free list
of registered nodes consistent with the edge order, the final map is stable
outside the list and satisfies at every listed node the clamped recurrence
through the FINAL values of its inneighbors. -/
lemma computeDist_main (g : Wdgraph) (hwf : WF g) :
    ∀ (L : List String) (d dist : String → ℚ), L.Nodup →
      (∀ v ∈ L, v ∈ g.directmap) →
      (∀ u v w, Edge g u v w → v ∈ L → u ∉ L ∨ Before u v L) →
      computeDist g L d = Except.ok dist →
      (∀ x, x ∉ L → dist x = d x) ∧
      (∀ v ∈ L, ∃ inns, get_inneighbors g v = Except.ok inns ∧
        dist v = distFold dist inns) := by
  intro L
  induction L with
  | nil =>
    intro d dist _ _ _ hok
    refine ⟨?_, by simp⟩
    intro x _
    have h2 : (Except.ok d : Except String (String → ℚ)) = Except.ok dist := hok
    injection h2 with h3
    rw [← h3]
  | cons target rest ih =>
    intro d dist hnd hreg hord hok
    have htreg : target ∈ g.directmap := hreg target (by simp)
    rcases wf_mem_lookup hwf htreg with ⟨nt, hnt⟩
    have hinn : get_inneighbors g target =
        Except.ok (innerScan g.adj_list g.directmap nt 0) := get_inneighbors_red hnt
    have hred : computeDist g (target :: rest) d = computeDist g rest
        (fun x => if x = target
          then distFold d (innerScan g.adj_list g.directmap nt 0) else d x) := by
      show (match get_inneighbors g target with
        | Except.error e => Except.error e
        | Except.ok inns =>
          computeDist g rest (fun x => if x = target then distFold d inns else d x)) = _
      rw [hinn]
    rw [hred] at hok
    have htnotin : target ∉ rest := (List.nodup_cons.mp hnd).1
    have hndrest : rest.Nodup := (List.nodup_cons.mp hnd).2
    have hregrest : ∀ v ∈ rest, v ∈ g.directmap := fun v hv => hreg v (by simp [hv])
    have hordrest : ∀ u v w, Edge g u v w → v ∈ rest → u ∉ rest ∨ Before u v rest := by
      intro u v w hE hv
      rcases hord u v w hE (by simp [hv]) with hn | hb
      · exact Or.inl (fun hc => hn (by simp [hc]))
      · rcases before_cons hb with heq | hb2
        · rw [heq]
          exact Or.inl htnotin
        · exact Or.inr hb2
    obtain ⟨hstab, hmem⟩ := ih _ dist hndrest hregrest hordrest hok
    have hsrc : ∀ p ∈ innerScan g.adj_list g.directmap nt 0, dist p.1 = d p.1 := by
      rintro ⟨m, w⟩ hp
      have hE : Edge g m target w := (get_inneighbors_mem hwf hnt).mp hp
      rcases hord m target w hE (by simp) with hn | hb
      · have hmne : m ≠ target := fun hc => hn (by simp [hc])
        have hmnin : m ∉ rest := fun hc => hn (by simp [hc])
        have h2 : dist m = if m = target
            then distFold d (innerScan g.adj_list g.directmap nt 0) else d m :=
          hstab m hmnin
        rw [if_neg hmne] at h2
        exact h2
      · exfalso
        rcases before_cons hb with heq | hb2
        · rw [heq] at hb
          exact before_irrefl hnd hb
        · exact htnotin (before_mem_right hb2)
    refine ⟨?_, ?_⟩
    · intro x hx
      have hxrest : x ∉ rest := fun hc => hx (by simp [hc])
      have hxne : x ≠ target := fun hc => hx (by simp [hc])
      have h2 : dist x = if x = target
          then distFold d (innerScan g.adj_list g.directmap nt 0) else d x := hstab x hxrest
      rw [if_neg hxne] at h2
      exact h2
    · intro v hv
      rcases List.mem_cons.mp hv with heq | hvr
      · refine ⟨innerScan g.adj_list g.directmap nt 0, ?_, ?_⟩
        · rw [heq]
          exact hinn
        · have h2 : dist target = if target = target
              then distFold d (innerScan g.adj_list g.directmap nt 0) else d target :=
            hstab target htnotin
          rw [if_pos rfl] at h2
          rw [heq, h2]
          exact distFold_congr (fun p hp => (hsrc p hp).symm)
      · exact hmem v hvr

/-! ## The backward reconstruction loop -/

lemma reconBest_foldl_mem (dist : String → ℚ) :
    ∀ (inns : List (String × ℚ)) (acc : Option ℚ × Option String) (m : String),
      (List.foldl (fun acc sw => match acc.1 with
        | none => (some (dist sw.1), some sw.1)
        | some md => if md < dist sw.1 then (some (dist sw.1), some sw.1) else acc)
        acc inns).2 = some m →
      acc.2 = some m ∨ ∃ w, (m, w) ∈ inns := by
  intro inns
  induction inns with
  | nil =>
    intro acc m h
    exact Or.inl h
  | cons sw tl ih =>
    intro acc m h
    rw [List.foldl_cons] at h
    rcases ih _ m h with hacc | ⟨w, hw⟩
    · cases hfst : acc.1 with
      | none =>
        rw [hfst] at hacc
        have h2 : (some sw.1 : Option String) = some m := hacc
        injection h2 with h3
        refine Or.inr ⟨sw.2, ?_⟩
        rw [← h3]
        exact List.mem_cons_self sw tl
      | some md =>
        rw [hfst] at hacc
        have h2 : (if md < dist sw.1 then (some (dist sw.1), some sw.1)
            else acc).2 = some m := hacc
        by_cases hlt : md < dist sw.1
        · rw [if_pos hlt] at h2
          have h3 : (some sw.1 : Option String) = some m := h2
          injection h3 with h4
          refine Or.inr ⟨sw.2, ?_⟩
          rw [← h4]
          exact List.mem_cons_self sw tl
        · rw [if_neg hlt] at h2
          exact Or.inl h2
    · exact Or.inr ⟨w, List.mem_cons_of_mem sw hw⟩

lemma reconBest_some_mem (dist : String → ℚ) {inns : List (String × ℚ)} {m : String}
    (h : (reconBest dist inns).2 = some m) : ∃ w, (m, w) ∈ inns := by
  rcases reconBest_foldl_mem dist inns (none, none) m h with hacc | hmem
  · exact absurd hacc (by simp)
  · exact hmem

lemma reconLoop_succ (g : Wdgraph) (dist : String → ℚ) (fuel : Nat) (current : String)
    (path : List String) :
    reconLoop g dist (fuel + 1) current path =
      if current = "s" then Except.ok path
      else match get_inneighbors g current with
        | Except.error e => Except.error e
        | Except.ok inns =>
          match (reconBest dist inns).2 with
          | none => Except.error unregMsg
          | some m => reconLoop g dist fuel m (m :: path) := rfl

/-- The backward walk never exhausts its fuel on an acyclic graph: visited
nodes are all reachable from the current one, so they are pairwise distinct
registered nodes and the walk stops within one step per registered node. -/
lemma reconLoop_ne_fuelMsg (g : Wdgraph) (hwf : WF g)
    (hacyc : ¬ HasCycle (labelEdges g)) (dist : String → ℚ) :
    ∀ (fuel : Nat) (current : String) (path : List String) (V : Finset String),
      current ∈ g.directmap →
      (∀ x ∈ V, x ∈ g.directmap ∧ EdgeSeq (labelEdges g) current x) →
      current ∉ V →
      g.directmap.toFinset.card ≤ fuel + V.card →
      reconLoop g dist fuel current path ≠ Except.error fuelMsg := by
  intro fuel
  induction fuel with
  | zero =>
    intro current path V hcur hV hcV hcard
    exfalso
    have hsub : insert current V ⊆ g.directmap.toFinset := by
      intro x hx
      rcases Finset.mem_insert.mp hx with heq | hxV
      · rw [heq]
        exact List.mem_toFinset.mpr hcur
      · exact List.mem_toFinset.mpr (hV x hxV).1
    have hle := Finset.card_le_card hsub
    rw [Finset.card_insert_of_not_mem hcV] at hle
    omega
  | succ f ih =>
    intro current path V hcur hV hcV hcard
    rw [reconLoop_succ]
    by_cases hs : current = "s"
    · rw [if_pos hs]
      intro hcon
      exact Except.noConfusion hcon
    · rw [if_neg hs]
      rcases wf_mem_lookup hwf hcur with ⟨nc, hnc⟩
      rw [get_inneighbors_red hnc]
      show (match (reconBest dist (innerScan g.adj_list g.directmap nc 0)).2 with
        | none => Except.error unregMsg
        | some m => reconLoop g dist f m (m :: path)) ≠ Except.error fuelMsg
      cases hrb : (reconBest dist (innerScan g.adj_list g.directmap nc 0)).2 with
      | none =>
        intro hcon
        have h2 : (Except.error unregMsg : Except String (List String)) =
            Except.error fuelMsg := hcon
        injection h2 with h3
        exact absurd h3 (by decide)
      | some m =>
        show reconLoop g dist f m (m :: path) ≠ Except.error fuelMsg
        obtain ⟨w, hw⟩ := reconBest_some_mem dist hrb
        have hE : Edge g m current w := (get_inneighbors_mem hwf hnc).mp hw
        have hmE : (m, current) ∈ labelEdges g := (mem_labelEdges hwf).mpr ⟨w, hE⟩
        have hmdm : m ∈ g.directmap := (edge_mem_directmap hwf hE).1
        have hmV : m ∉ insert current V := by
          intro hc
          rcases Finset.mem_insert.mp hc with heq | hmVin
          · exact hacyc ⟨current, EdgeSeq.single (heq ▸ hmE)⟩
          · exact hacyc ⟨m, EdgeSeq.cons hmE (hV m hmVin).2⟩
        have hV2 : ∀ x ∈ insert current V, x ∈ g.directmap ∧ EdgeSeq (labelEdges g) m x := by
          intro x hx
          rcases Finset.mem_insert.mp hx with heq | hxV
          · refine ⟨by rw [heq]; exact hcur, ?_⟩
            rw [heq]
            exact EdgeSeq.single hmE
          · exact ⟨(hV x hxV).1, EdgeSeq.cons hmE (hV x hxV).2⟩
        have hcard2 : g.directmap.toFinset.card ≤ f + (insert current V).card := by
          rw [Finset.card_insert_of_not_mem hcV]
          omega
        exact ih m (m :: path) (insert current V) hmdm hV2 hmV hcard2

/-- When t is unreachable from s on an acyclic graph, the backward walk never
meets s: it keeps stepping to registered inneighbors until it dead-ends at a
node with none, where the None selection turns into the unregistered-node
error of the following lookup. -/
lemma reconLoop_unreach (g : Wdgraph) (hwf : WF g)
    (hacyc : ¬ HasCycle (labelEdges g))
    (hunreach : ¬ EdgeSeq (labelEdges g) "s" "t") (dist : String → ℚ) :
    ∀ (fuel : Nat) (current : String) (path : List String) (V : Finset String),
      current ∈ g.directmap →
      (current = "t" ∨ EdgeSeq (labelEdges g) current "t") →
      (∀ x ∈ V, x ∈ g.directmap ∧ EdgeSeq (labelEdges g) current x) →
      current ∉ V →
      g.directmap.toFinset.card ≤ fuel + V.card →
      reconLoop g dist fuel current path = Except.error unregMsg := by
  intro fuel
  induction fuel with
  | zero =>
    intro current path V hcur _ hV hcV hcard
    exfalso
    have hsub : insert current V ⊆ g.directmap.toFinset := by
      intro x hx
      rcases Finset.mem_insert.mp hx with heq | hxV
      · rw [heq]
        exact List.mem_toFinset.mpr hcur
      · exact List.mem_toFinset.mpr (hV x hxV).1
    have hle := Finset.card_le_card hsub
    rw [Finset.card_insert_of_not_mem hcV] at hle
    omega
  | succ f ih =>
    intro current path V hcur hreach hV hcV hcard
    rw [reconLoop_succ]
    have hs : ¬ current = "s" := by
      intro hs
      rcases hreach with ht | hseq
      · have : ("s" : String) = "t" := by
          rw [← hs]
          exact ht
        exact absurd this (by decide)
      · rw [hs] at hseq
        exact hunreach hseq
    rw [if_neg hs]
    rcases wf_mem_lookup hwf hcur with ⟨nc, hnc⟩
    rw [get_inneighbors_red hnc]
    show (match (reconBest dist (innerScan g.adj_list g.directmap nc 0)).2 with
      | none => Except.error unregMsg
      | some m => reconLoop g dist f m (m :: path)) = Except.error unregMsg
    cases hrb : (reconBest dist (innerScan g.adj_list g.directmap nc 0)).2 with
    | none => rfl
    | some m =>
      show reconLoop g dist f m (m :: path) = Except.error unregMsg
      obtain ⟨w, hw⟩ := reconBest_some_mem dist hrb
      have hE : Edge g m current w := (get_inneighbors_mem hwf hnc).mp hw
      have hmE : (m, current) ∈ labelEdges g := (mem_labelEdges hwf).mpr ⟨w, hE⟩
      have hmdm : m ∈ g.directmap := (edge_mem_directmap hwf hE).1
      have hreach2 : m = "t" ∨ EdgeSeq (labelEdges g) m "t" := by
        rcases hreach with ht | hseq
        · exact Or.inr (EdgeSeq.single (ht ▸ hmE))
        · exact Or.inr (EdgeSeq.cons hmE hseq)
      have hmV : m ∉ insert current V := by
        intro hc
        rcases Finset.mem_insert.mp hc with heq | hmVin
        · exact hacyc ⟨current, EdgeSeq.single (heq ▸ hmE)⟩
        · exact hacyc ⟨m, EdgeSeq.cons hmE (hV m hmVin).2⟩
      have hV2 : ∀ x ∈ insert current V, x ∈ g.directmap ∧ EdgeSeq (labelEdges g) m x := by
        intro x hx
        rcases Finset.mem_insert.mp hx with heq | hxV
        · refine ⟨by rw [heq]; exact hcur, ?_⟩
          rw [heq]
          exact EdgeSeq.single hmE
        · exact ⟨(hV x hxV).1, EdgeSeq.cons hmE (hV x hxV).2⟩
      have hcard2 : g.directmap.toFinset.card ≤ f + (insert current V).card := by
        rw [Finset.card_insert_of_not_mem hcV]
        omega
      exact ih m (m :: path) (insert current V) hmdm hreach2 hV2 hmV hcard2

/-! ## Heap model: frame lemmas for the deep copy -/

lemma alookup_mem {l : List (String × Nat)} {u : String} {n : Nat}
    (h : alookup l u = some n) : (u, n) ∈ l := by
  induction l with
  | nil => cases h
  | cons p rest ih =>
    rcases p with ⟨k, m⟩
    by_cases hk : k = u
    · simp only [alookup] at h
      rw [if_pos hk] at h
      injection h with h2
      rw [← hk, ← h2]
      exact List.mem_cons_self _ _
    · simp only [alookup] at h
      rw [if_neg hk] at h
      exact List.mem_cons_of_mem _ (ih h)

lemma refAt_eq_getElem {l : List Nat} {i : Nat} (h : i < l.length) : refAt l i = l[i] := by
  induction l generalizing i with
  | nil => simp at h
  | cons r rest ih =>
    cases i with
    | zero => rfl
    | succ j =>
      simp only [List.getElem_cons_succ]
      exact ih (by simpa using h)

lemma refAt_mem {l : List Nat} {i : Nat} (h : i < l.length) : refAt l i ∈ l := by
  rw [refAt_eq_getElem h]
  exact List.getElem_mem h

lemma hgood_lookup_lt {h : Heap} {g : PyGraph} (hgood : HGood h g) {u : String} {n : Nat}
    (hl : alookup g.hashmap u = some n) : n < g.len :=
  hgood.2.1 (u, n) (alookup_mem hl)

lemma hwrite_cells_length (h : Heap) (r : Nat) (row2 : List (Nat × ℚ)) :
    (hwrite h r row2).cells.length = h.cells.length := modifyRow_length _ _ _

lemma hwrite_frame {refs : List Nat} {h : Heap} {g : PyGraph} {n1 : Nat}
    (row2 : List (Nat × ℚ)) (hgood : HGood h g) (hn1 : n1 < g.len)
    (hdis : ∀ r ∈ g.adjRefs, r ∉ refs) :
    (∀ r ∈ refs, rowAt (hwrite h (refAt g.adjRefs n1) row2).cells r = rowAt h.cells r) ∧
    (hwrite h (refAt g.adjRefs n1) row2).cells.length = h.cells.length := by
  have hmem : refAt g.adjRefs n1 ∈ g.adjRefs := refAt_mem (by rw [hgood.1]; omega)
  refine ⟨?_, hwrite_cells_length h _ row2⟩
  intro r hr
  have hne : refAt g.adjRefs n1 ≠ r := by
    intro hc
    exact hdis _ hmem (hc ▸ hr)
  exact rowAt_modifyRow_ne _ hne

lemma hraw_frame {refs : List Nat} {h : Heap} {g : PyGraph} {n1 : Nat} (n2 : Nat) (w : ℚ)
    (hgood : HGood h g) (hn1 : n1 < g.len) (hdis : ∀ r ∈ g.adjRefs, r ∉ refs) :
    (∀ r ∈ refs, rowAt (hraw_set_edge h g n1 n2 w).cells r = rowAt h.cells r) ∧
    (hraw_set_edge h g n1 n2 w).cells.length = h.cells.length := by
  unfold hraw_set_edge
  exact hwrite_frame _ hgood hn1 hdis

lemma hregister_frame {refs : List Nat} {bound : Nat} (hrefs : ∀ r ∈ refs, r < bound)
    {h : Heap} {g : PyGraph} (u : String)
    (hgood : HGood h g) (hb : bound ≤ h.cells.length)
    (hdis : ∀ r ∈ g.adjRefs, r ∉ refs) :
    HGood (hregister_node h g u).1 (hregister_node h g u).2.1 ∧
    bound ≤ (hregister_node h g u).1.cells.length ∧
    (∀ r ∈ (hregister_node h g u).2.1.adjRefs, r ∉ refs) ∧
    (∀ r ∈ refs, rowAt (hregister_node h g u).1.cells r = rowAt h.cells r) ∧
    (hregister_node h g u).2.2 < (hregister_node h g u).2.1.len ∧
    g.len ≤ (hregister_node h g u).2.1.len := by
  cases hl : alookup g.hashmap u with
  | some n =>
    have hred : hregister_node h g u = (h, g, n) := by
      unfold hregister_node
      rw [hl]
    rw [hred]
    exact ⟨hgood, hb, hdis, fun r _ => rfl, hgood_lookup_lt hgood hl, le_refl _⟩
  | none =>
    have hred : hregister_node h g u =
        (⟨h.cells ++ [[]]⟩,
         ⟨g.len + 1, g.hashmap ++ [(u, g.len)], g.directmap ++ [u],
          g.adjRefs ++ [h.cells.length]⟩, g.len) := by
      unfold hregister_node
      rw [hl]
      rfl
    rw [hred]
    refine ⟨⟨?_, ?_, ?_⟩, ?_, ?_, ?_, ?_, ?_⟩
    · show (g.adjRefs ++ [h.cells.length]).length = g.len + 1
      rw [List.length_append, hgood.1]
      rfl
    · intro p hp
      rcases List.mem_append.mp hp with h1 | h2
      · have := hgood.2.1 p h1
        show p.2 < g.len + 1
        omega
      · simp only [List.mem_singleton] at h2
        subst h2
        show g.len < g.len + 1
        omega
    · intro r hr
      show r < (h.cells ++ [[]]).length
      rw [List.length_append]
      rcases List.mem_append.mp hr with h1 | h2
      · have := hgood.2.2 r h1
        simp
        omega
      · simp only [List.mem_singleton] at h2
        subst h2
        simp
    · show bound ≤ (h.cells ++ [[]]).length
      rw [List.length_append]
      omega
    · intro r hr
      rcases List.mem_append.mp hr with h1 | h2
      · exact hdis r h1
      · simp only [List.mem_singleton] at h2
        subst h2
        intro hc
        have := hrefs _ hc
        omega
    · intro r hr
      exact rowAt_append_lt (by have := hrefs r hr; omega)
    · show g.len < g.len + 1
      omega
    · show g.len ≤ g.len + 1
      omega

lemma hset_edge_frame {refs : List Nat} {bound : Nat} (hrefs : ∀ r ∈ refs, r < bound)
    {h : Heap} {g : PyGraph} (u v : String) (w : ℚ)
    (hgood : HGood h g) (hb : bound ≤ h.cells.length)
    (hdis : ∀ r ∈ g.adjRefs, r ∉ refs) :
    HGood (hset_edge h g u v w).1 (hset_edge h g u v w).2 ∧
    bound ≤ (hset_edge h g u v w).1.cells.length ∧
    (∀ r ∈ (hset_edge h g u v w).2.adjRefs, r ∉ refs) ∧
    (∀ r ∈ refs, rowAt (hset_edge h g u v w).1.cells r = rowAt h.cells r) := by
  obtain ⟨hg1, hb1, hdis1, hrow1, hn1, hm1⟩ := hregister_frame hrefs u hgood hb hdis
  obtain ⟨hg2, hb2, hdis2, hrow2, hn2, hm2⟩ := hregister_frame hrefs v hg1 hb1 hdis1
  obtain ⟨hwrow, hwlen⟩ := hraw_frame (hregister_node (hregister_node h g u).1
      (hregister_node h g u).2.1 v).2.2 w hg2 (lt_of_lt_of_le hn1 hm2) hdis2
  refine ⟨⟨hg2.1, hg2.2.1, ?_⟩, ?_, hdis2, ?_⟩
  · intro r hr
    exact lt_of_lt_of_eq (hg2.2.2 r hr) hwlen.symm
  · exact le_of_le_of_eq hb2 hwlen.symm
  · intro r hr
    exact (hwrow r hr).trans ((hrow2 r hr).trans (hrow1 r hr))

lemma hremove_edge_ok_inv {h : Heap} {g : PyGraph} {u v : String} {hg2 : Heap × PyGraph}
    (e : hremove_edge h g u v = Except.ok hg2) :
    ∃ n1, alookup g.hashmap u = some n1 ∧
      ∃ p, hg2 = (hwrite h (refAt g.adjRefs n1)
        (removeFirstEq (hread h (refAt g.adjRefs n1)) p), g) := by
  cases h1 : alookup g.hashmap u with
  | none =>
    unfold hremove_edge at e
    rw [h1] at e
    have e2 : (Except.error unregMsg : Except String (Heap × PyGraph)) = Except.ok hg2 := e
    exact Except.noConfusion e2
  | some n1 =>
    unfold hremove_edge at e
    rw [h1] at e
    have e2 : (match alookup g.hashmap v with
      | none => Except.error unregMsg
      | some n2 =>
        match lastMatch (hread h (refAt g.adjRefs n1)) n2 with
        | some p =>
          Except.ok (hwrite h (refAt g.adjRefs n1)
            (removeFirstEq (hread h (refAt g.adjRefs n1)) p), g)
        | none => Except.error noEdgeMsg) = Except.ok hg2 := e
    cases h2 : alookup g.hashmap v with
    | none =>
      rw [h2] at e2
      have e3 : (Except.error unregMsg : Except String (Heap × PyGraph)) = Except.ok hg2 := e2
      exact Except.noConfusion e3
    | some n2 =>
      rw [h2] at e2
      have e3 : (match lastMatch (hread h (refAt g.adjRefs n1)) n2 with
        | some p =>
          Except.ok (hwrite h (refAt g.adjRefs n1)
            (removeFirstEq (hread h (refAt g.adjRefs n1)) p), g)
        | none => Except.error noEdgeMsg) = Except.ok hg2 := e2
      cases h3 : lastMatch (hread h (refAt g.adjRefs n1)) n2 with
      | none =>
        rw [h3] at e3
        have e4 : (Except.error noEdgeMsg : Except String (Heap × PyGraph)) =
            Except.ok hg2 := e3
        exact Except.noConfusion e4
      | some p =>
        rw [h3] at e3
        have e4 : Except.ok (hwrite h (refAt g.adjRefs n1)
            (removeFirstEq (hread h (refAt g.adjRefs n1)) p), g) = Except.ok hg2 := e3
        injection e4 with e5
        exact ⟨n1, rfl, p, e5.symm⟩

lemma execHOp_frame {refs : List Nat} {bound : Nat} (hrefs : ∀ r ∈ refs, r < bound) :
    ∀ (hg : Heap × PyGraph) (op : HOp),
      HGood hg.1 hg.2 → bound ≤ hg.1.cells.length → (∀ r ∈ hg.2.adjRefs, r ∉ refs) →
      HGood (execHOp hg op).1 (execHOp hg op).2 ∧
      bound ≤ (execHOp hg op).1.cells.length ∧
      (∀ r ∈ (execHOp hg op).2.adjRefs, r ∉ refs) ∧
      (∀ r ∈ refs, rowAt (execHOp hg op).1.cells r = rowAt hg.1.cells r) := by
  rintro ⟨hh, gg⟩ op hgood hb hdis
  cases op with
  | hsetOp u v w => exact hset_edge_frame hrefs u v w hgood hb hdis
  | hregOp u =>
    obtain ⟨k1, k2, k3, k4, -, -⟩ := hregister_frame hrefs u hgood hb hdis
    exact ⟨k1, k2, k3, k4⟩
  | hremOp u v =>
    cases e : hremove_edge hh gg u v with
    | error s =>
      have hred : execHOp (hh, gg) (HOp.hremOp u v) = (hh, gg) := by
        show (match hremove_edge hh gg u v with
          | Except.ok hg2 => hg2
          | Except.error _ => (hh, gg)) = (hh, gg)
        rw [e]
      rw [hred]
      exact ⟨hgood, hb, hdis, fun r _ => rfl⟩
    | ok hg2 =>
      have hred : execHOp (hh, gg) (HOp.hremOp u v) = hg2 := by
        show (match hremove_edge hh gg u v with
          | Except.ok hg2 => hg2
          | Except.error _ => (hh, gg)) = hg2
        rw [e]
      obtain ⟨n1, hl1, p, hp⟩ := hremove_edge_ok_inv e
      rw [hred, hp]
      obtain ⟨hwrow, hwlen⟩ := hwrite_frame (removeFirstEq (hread hh (refAt gg.adjRefs n1)) p)
        hgood (hgood_lookup_lt hgood hl1) hdis
      refine ⟨⟨hgood.1, hgood.2.1, ?_⟩, ?_, hdis, hwrow⟩
      · intro r hr
        exact lt_of_lt_of_eq (hgood.2.2 r hr) hwlen.symm
      · exact le_of_le_of_eq hb hwlen.symm

lemma runHOps_frame {refs : List Nat} {bound : Nat} (hrefs : ∀ r ∈ refs, r < bound) :
    ∀ (ops : List HOp) (hg : Heap × PyGraph),
      HGood hg.1 hg.2 → bound ≤ hg.1.cells.length → (∀ r ∈ hg.2.adjRefs, r ∉ refs) →
      HGood (runHOps hg ops).1 (runHOps hg ops).2 ∧
      bound ≤ (runHOps hg ops).1.cells.length ∧
      (∀ r ∈ (runHOps hg ops).2.adjRefs, r ∉ refs) ∧
      (∀ r ∈ refs, rowAt (runHOps hg ops).1.cells r = rowAt hg.1.cells r) := by
  intro ops
  induction ops with
  | nil =>
    intro hg h1 h2 h3
    exact ⟨h1, h2, h3, fun r _ => rfl⟩
  | cons op rest ih =>
    intro hg h1 h2 h3
    obtain ⟨k1, k2, k3, k4⟩ := execHOp_frame hrefs hg op h1 h2 h3
    obtain ⟨m1, m2, m3, m4⟩ := ih (execHOp hg op) k1 k2 k3
    refine ⟨m1, m2, m3, ?_⟩
    intro r hr
    exact (m4 r hr).trans (k4 r hr)

lemma hget_edge_unreg {h : Heap} {g : PyGraph} {u : String} (v : String)
    (hu : alookup g.hashmap u = none) : hget_edge h g u v = Except.error unregMsg := by
  unfold hget_edge
  rw [hu]

lemma hget_edge_red {h : Heap} {g : PyGraph} {u : String} (v : String) {n1 : Nat}
    (hu : alookup g.hashmap u = some n1) :
    hget_edge h g u v =
      (match alookup g.hashmap v with
       | none => Except.error unregMsg
       | some n2 =>
         match findWeight (hread h (refAt g.adjRefs n1)) n2 with
         | some w => Except.ok w
         | none => Except.error noEdgeMsg) := by
  unfold hget_edge
  rw [hu]

lemma hget_outdegree_unreg {h : Heap} {g : PyGraph} {u : String}
    (hu : alookup g.hashmap u = none) : hget_outdegree h g u = Except.error unregMsg := by
  unfold hget_outdegree
  rw [hu]

lemma hget_outdegree_red {h : Heap} {g : PyGraph} {u : String} {n : Nat}
    (hu : alookup g.hashmap u = some n) :
    hget_outdegree h g u = Except.ok (hread h (refAt g.adjRefs n)).length := by
  unfold hget_outdegree
  rw [hu]

lemma hget_inneighbors_unreg {h : Heap} {g : PyGraph} {u : String}
    (hu : alookup g.hashmap u = none) : hget_inneighbors h g u = Except.error unregMsg := by
  unfold hget_inneighbors
  rw [hu]

lemma hget_inneighbors_red {h : Heap} {g : PyGraph} {u : String} {n : Nat}
    (hu : alookup g.hashmap u = some n) :
    hget_inneighbors h g u =
      Except.ok (innerScan (g.adjRefs.map (fun r => hread h r)) g.directmap n 0) := by
  unfold hget_inneighbors
  rw [hu]

/-- All heap observations of one graph record depend only on the heap rows it
references: a heap change away from those rows is unobservable through it. -/
lemma hobs_congr {h h2 : Heap} {g : PyGraph} (hgood : HGood h g)
    (hrows : ∀ r ∈ g.adjRefs, rowAt h2.cells r = rowAt h.cells r) :
    (∀ u v, hget_edge h2 g u v = hget_edge h g u v) ∧
    (∀ u, hget_outdegree h2 g u = hget_outdegree h g u) ∧
    (∀ u, hget_inneighbors h2 g u = hget_inneighbors h g u) ∧
    hnodeCount h2 g = hnodeCount h g := by
  have hrd : ∀ n, n < g.len → hread h2 (refAt g.adjRefs n) = hread h (refAt g.adjRefs n) := by
    intro n hn
    exact hrows _ (refAt_mem (by rw [hgood.1]; omega))
  have hmap : g.adjRefs.map (fun r => hread h2 r) = g.adjRefs.map (fun r => hread h r) :=
    List.map_congr_left (fun r hr => hrows r hr)
  refine ⟨?_, ?_, ?_, rfl⟩
  · intro u v
    cases hu : alookup g.hashmap u with
    | none => rw [hget_edge_unreg v hu, hget_edge_unreg v hu]
    | some n1 =>
      rw [hget_edge_red v hu, hget_edge_red v hu, hrd n1 (hgood_lookup_lt hgood hu)]
  · intro u
    cases hu : alookup g.hashmap u with
    | none => rw [hget_outdegree_unreg hu, hget_outdegree_unreg hu]
    | some n =>
      rw [hget_outdegree_red hu, hget_outdegree_red hu, hrd n (hgood_lookup_lt hgood hu)]
  · intro u
    cases hu : alookup g.hashmap u with
    | none => rw [hget_inneighbors_unreg hu, hget_inneighbors_unreg hu]
    | some n =>
      rw [hget_inneighbors_red hu, hget_inneighbors_red hu, hmap]

lemma hcopy_good {h : Heap} {g : PyGraph} (hgood : HGood h g) :
    HGood (hcopy h g).1 (hcopy h g).2 := by
  refine ⟨?_, ?_, ?_⟩
  · show ((List.range g.adjRefs.length).map (fun i => h.cells.length + i)).length = g.len
    rw [List.length_map, List.length_range, hgood.1]
  · intro p hp
    exact hgood.2.1 p hp
  · intro r hr
    show r < (h.cells ++ g.adjRefs.map (fun r2 => hread h r2)).length
    rw [List.length_append, List.length_map]
    have hr2 : r ∈ (List.range g.adjRefs.length).map (fun i => h.cells.length + i) := hr
    rcases List.mem_map.mp hr2 with ⟨i, hik, hi⟩
    rw [List.mem_range] at hik
    omega

lemma hcopy_refs_disjoint {h : Heap} {g : PyGraph} (hgood : HGood h g) :
    ∀ r ∈ (hcopy h g).2.adjRefs, r ∉ g.adjRefs := by
  intro r hr hmem
  have h1 := hgood.2.2 r hmem
  have hr2 : r ∈ (List.range g.adjRefs.length).map (fun i => h.cells.length + i) := hr
  rcases List.mem_map.mp hr2 with ⟨i, _, hi⟩
  omega

/-! ## Claims C6 and C7 -/

/-- C6: after set_edge(u, v, w), get_edge(u, v) returns w; a subsequent
set_edge(u, v, w2) makes get_edge(u, v) return w2 without creating a
duplicate edge (the outdegree of u is unchanged by the overwrite), and the
get_edge result of every other ordered pair is unchanged. -/
theorem claim_C6_set_get_overwrite (g : Wdgraph) (u v : String) (w w2 : ℚ)
    (hwf : WF g) (_huv : u ≠ v) :
    get_edge (set_edge g u v w) u v = Except.ok w ∧
    get_edge (set_edge (set_edge g u v w) u v w2) u v = Except.ok w2 ∧
    get_outdegree (set_edge (set_edge g u v w) u v w2) u =
      get_outdegree (set_edge g u v w) u ∧
    (∀ p q : String, ¬(p = u ∧ q = v) →
      get_edge (set_edge (set_edge g u v w) u v w2) p q =
        get_edge (set_edge g u v w) p q) := by
  have hwf1 : WF (set_edge g u v w) := set_edge_wf hwf u v w
  have hE1 : Edge (set_edge g u v w) u v w :=
    (set_edge_edge hwf u v w).mpr (Or.inl ⟨rfl, rfl, rfl⟩)
  have hwf2 : WF (set_edge (set_edge g u v w) u v w2) := set_edge_wf hwf1 u v w2
  have hE2 : Edge (set_edge (set_edge g u v w) u v w2) u v w2 :=
    (set_edge_edge hwf1 u v w2).mpr (Or.inl ⟨rfl, rfl, rfl⟩)
  refine ⟨(get_edge_ok_iff hwf1).mpr hE1, (get_edge_ok_iff hwf2).mpr hE2,
    set_edge_outdegree_of_edge hwf1 hE1 w2 u, ?_⟩
  intro p q hpq
  rcases hE1 with ⟨n1, n2, hu1, hv1, -⟩
  have hh : (set_edge (set_edge g u v w) u v w2).hashmap = (set_edge g u v w).hashmap := by
    rw [set_edge_hashmap_of_regd hu1 hv1 w2]
    rfl
  refine get_edge_congr hwf2 hwf1 hh ?_
  intro w3
  rw [set_edge_edge hwf1 u v w2]
  constructor
  · rintro (⟨hp, hq, -⟩ | ⟨hE, -⟩)
    · exact absurd ⟨hp, hq⟩ hpq
    · exact hE
  · intro hE
    exact Or.inr ⟨hE, hpq⟩

/-- C6 witness: the theorem instantiated on the empty graph with the labels
u and v and weights 3 then 5. -/
theorem claim_C6_witness :
    get_edge (set_edge emptyWdgraph "u" "v" 3) "u" "v" = Except.ok 3 ∧
    get_edge (set_edge (set_edge emptyWdgraph "u" "v" 3) "u" "v" 5) "u" "v" = Except.ok 5 ∧
    get_outdegree (set_edge (set_edge emptyWdgraph "u" "v" 3) "u" "v" 5) "u" =
      get_outdegree (set_edge emptyWdgraph "u" "v" 3) "u" ∧
    (∀ p q : String, ¬(p = "u" ∧ q = "v") →
      get_edge (set_edge (set_edge emptyWdgraph "u" "v" 3) "u" "v" 5) p q =
        get_edge (set_edge emptyWdgraph "u" "v" 3) p q) :=
  claim_C6_set_get_overwrite emptyWdgraph "u" "v" 3 5 (by decide) (by decide)

/-- C7: every state reachable from the empty graph through the Graph Store
operations (register_node, set_edge, remove_edge, create_probability_graph,
copy) keeps at most one outgoing edge per ordered pair of handles: no
adjacency row holds two entries with the same target. -/
theorem claim_C7_no_duplicate_edges (ops : List GOp) :
    ∀ r ∈ (runOps ops).adj_list, (r.map Prod.fst).Nodup :=
  fun r hr => ((runOps_wf ops).2.2.2.2 r hr).2

/-- C7 witness: the invariant read off a concrete reachable state. -/
theorem claim_C7_witness :
    (([((1 : Nat), (1 : ℚ))] : List (Nat × ℚ)).map Prod.fst).Nodup :=
  claim_C7_no_duplicate_edges [GOp.setOp "a" "b" 1] [((1 : Nat), (1 : ℚ))] (by decide)

/-! ## Claim C1, C4 and C5 evaluation theorems -/

/-- C1 (code bug evidence): on the tie graph cg1 both inneighbors of t carry
the maximal dist value 2, solve_max_path returns dist of t equal to 7
together with the reconstructed path s,b,t, yet the total edge weight of
that path is 3, not 7: the reconstruction maximizes dist of the inneighbor
alone instead of dist plus edge weight, so the returned path does not
realize the returned length. -/
theorem claim_C1_tie_break_code_bug :
    solve_max_path cg1 = Except.ok (7, ["s", "b", "t"]) ∧
    pathWeight cg1 ["s", "b", "t"] = Except.ok 3 ∧
    (3 : ℚ) ≠ 7 ∧
    get_inneighbors cg1 "t" = Except.ok [("b", 1), ("a", 5)] ∧
    distAt cg1 "b" = Except.ok 2 ∧
    distAt cg1 "a" = Except.ok 2 := by
  decide

/-- C4 (counterexample): on cg4 the node a is processed in topological order
with the single inneighbor (s, -5), so the claimed recurrence would give
dist of a equal to dist of s plus -5 = -5, but the code computes 0 (the
running maximum starts at 0, clamping negative values). -/
theorem claim_C4_counterexample :
    kahns_algorithm cg4 = Except.ok ["s", "a"] ∧
    get_inneighbors cg4 "a" = Except.ok [("s", -5)] ∧
    distAt cg4 "s" = Except.ok 0 ∧
    distAt cg4 "a" = Except.ok 0 ∧
    (0 : ℚ) ≠ 0 + (-5) := by
  decide

/-! ## Claims C2, C3 and C10 -/

/-- C2: on every well-formed graph without a directed cycle, kahns_algorithm
succeeds and returns a list in which the source of every stored edge occurs
strictly before its target. -/
theorem claim_C2_topological_order (g : Wdgraph) (hwf : WF g)
    (hacyc : ¬ HasCycle (labelEdges g)) :
    ∃ L, kahns_algorithm g = Except.ok L ∧
      ∀ u v, (u, v) ∈ labelEdges g → Before u v L := by
  rcases kahns_main g hwf with ⟨L, hok, -, -, hord⟩ | ⟨-, hcyc⟩
  · exact ⟨L, hok, hord⟩
  · exact absurd hcyc hacyc

/-- C2 witness: the theorem instantiated on the one-edge graph s -> a. -/
theorem claim_C2_witness :
    ∃ L, kahns_algorithm (set_edge emptyWdgraph "s" "a" 1) = Except.ok L ∧
      ∀ u v, (u, v) ∈ labelEdges (set_edge emptyWdgraph "s" "a" 1) → Before u v L :=
  claim_C2_topological_order (set_edge emptyWdgraph "s" "a" 1) (by decide)
    (noCycle_of_targets_not_sources (by decide))

/-- C3: on every well-formed graph containing a directed cycle,
kahns_algorithm fails with the cycle-detected error and thus returns no
(partial) order. -/
theorem claim_C3_cycle_detected (g : Wdgraph) (hwf : WF g)
    (hcyc : HasCycle (labelEdges g)) :
    kahns_algorithm g = Except.error cycleMsg := by
  rcases kahns_main g hwf with ⟨L, hok, hfin⟩ | ⟨herr, -⟩
  · exact absurd hcyc (kahns_ok_not_hasCycle hwf hok)
  · exact herr

/-- C3 witness: the theorem instantiated on the two-cycle a -> b -> a. -/
theorem claim_C3_witness : kahns_algorithm cgc = Except.error cycleMsg :=
  claim_C3_cycle_detected cgc (by decide)
    ⟨"a", EdgeSeq.cons (show ("a", "b") ∈ labelEdges cgc by decide)
      (EdgeSeq.single (show ("b", "a") ∈ labelEdges cgc by decide))⟩

/-- C10: whenever kahns_algorithm returns successfully, the returned list is
a permutation of the registered node labels — every node, including isolated
ones, appears exactly once. -/
theorem claim_C10_perm_nodes (g : Wdgraph) (L : List String) (hwf : WF g)
    (h : kahns_algorithm g = Except.ok L) : L.Perm (get_nodes g) := by
  rcases kahns_ok_final hwf h with ⟨hnd, hiff, -⟩
  have hdm : (get_nodes g).Nodup := hwf.2.2.2.1
  refine List.Subperm.antisymm ?_ ?_
  · exact List.subperm_of_subset hnd (fun x hx => (hiff x).mp hx)
  · exact List.subperm_of_subset hdm (fun x hx => (hiff x).mpr hx)

/-- C10 witness: the theorem instantiated on the tie graph cg1. -/
theorem claim_C10_witness : (["s", "b", "a", "t"] : List String).Perm (get_nodes cg1) :=
  claim_C10_perm_nodes cg1 ["s", "b", "a", "t"] (by decide) (by decide)

/-- C4 (amended): on every well-formed graph whose topological sort succeeds,
the distance pass succeeds and at every sorted node v the final value is the
CLAMPED maximum: it is nonnegative, at least dist(u) + w for every stored edge
(u, v, w), and is either 0 (the clamp) or attained at some incoming edge.
The unclamped recurrence of the original claim fails for negative weights. -/
theorem claim_C4_amended_clamped (g : Wdgraph) (L : List String) (hwf : WF g)
    (hok : kahns_algorithm g = Except.ok L) :
    ∃ dist, computeDist g L (fun _ => 0) = Except.ok dist ∧
      ∀ v ∈ L, 0 ≤ dist v ∧
        (∀ u w, Edge g u v w → dist u + w ≤ dist v) ∧
        (dist v = 0 ∨ ∃ u w, Edge g u v w ∧ dist v = dist u + w) := by
  rcases kahns_ok_final hwf hok with ⟨hnd, hiff, hord⟩
  have hreg : ∀ v ∈ L, v ∈ g.directmap := fun v hv => (hiff v).mp hv
  have hordE : ∀ u v w, Edge g u v w → v ∈ L → u ∉ L ∨ Before u v L := by
    intro u v w hE _
    exact Or.inr (hord u v ((mem_labelEdges hwf).mpr ⟨w, hE⟩))
  rcases computeDist_ok g hwf L (fun _ => 0) hreg with ⟨dist, hdist⟩
  obtain ⟨-, hmem⟩ := computeDist_main g hwf L (fun _ => 0) dist hnd hreg hordE hdist
  refine ⟨dist, hdist, ?_⟩
  intro v hv
  rcases hmem v hv with ⟨inns, hinns, hval⟩
  rcases wf_mem_lookup hwf (hreg v hv) with ⟨nv, hnv⟩
  have hinns2 : inns = innerScan g.adj_list g.directmap nv 0 := by
    rw [get_inneighbors_red hnv] at hinns
    injection hinns with h2
    exact h2.symm
  refine ⟨?_, ?_, ?_⟩
  · rw [hval]
    exact distFold_nonneg dist inns
  · intro u w hE
    have hmemI : (u, w) ∈ inns := by
      rw [hinns2]
      exact (get_inneighbors_mem hwf hnv).mpr hE
    rw [hval]
    exact distFold_ge dist hmemI
  · rcases distFold_cases dist inns with h0 | ⟨⟨m, w2⟩, hp, he⟩
    · left
      rw [hval, h0]
    · right
      rw [hinns2] at hp
      exact ⟨m, w2, (get_inneighbors_mem hwf hnv).mp hp, by rw [hval, he]⟩

/-- C4 witness: the theorem instantiated on the negative-weight graph cg4. -/
theorem claim_C4_witness :
    ∃ dist, computeDist cg4 ["s", "a"] (fun _ => 0) = Except.ok dist ∧
      ∀ v ∈ ["s", "a"], 0 ≤ dist v ∧
        (∀ u w, Edge cg4 u v w → dist u + w ≤ dist v) ∧
        (dist v = 0 ∨ ∃ u w, Edge cg4 u v w ∧ dist v = dist u + w) :=
  claim_C4_amended_clamped cg4 ["s", "a"] (by decide) (by decide)

/-- C5 (counterexample): on the acyclic graph cg5 the sink t is unreachable
from s, and solve_max_path does not return normally: the backward walk
reaches the inneighbor-less node b, selects None, and fails with the
unregistered-node error; moreover dist of t is 1, not the claimed default 0. -/
theorem claim_C5_counterexample :
    solve_max_path cg5 = Except.error unregMsg ∧
    distAt cg5 "t" = Except.ok 1 ∧
    (1 : ℚ) ≠ 0 := by
  decide

/-- C5 (amended): on every well-formed acyclic graph in which t is not
reachable from s along stored edges, solve_max_path does NOT return a silent
zero-length answer: the backward reconstruction dead-ends, selects None, and
the run fails with the unregistered-node error. -/
theorem claim_C5_amended_raises (g : Wdgraph) (hwf : WF g)
    (hacyc : ¬ HasCycle (labelEdges g))
    (hunreach : ¬ EdgeSeq (labelEdges g) "s" "t") :
    solve_max_path g = Except.error unregMsg := by
  rcases kahns_main g hwf with ⟨L, hk, -, hiff, -⟩ | ⟨-, hcyc⟩
  · have hreg : ∀ v ∈ L, v ∈ g.directmap := fun v hv => (hiff v).mp hv
    rcases computeDist_ok g hwf L (fun _ => 0) hreg with ⟨dist, hd⟩
    have hred : solve_max_path g =
        (match reconLoop g dist (g.len + 2) "t" ["t"] with
          | Except.error e => Except.error e
          | Except.ok path => Except.ok (dist "t", path)) := by
      show (match kahns_algorithm g with
        | Except.error e => Except.error e
        | Except.ok sorted_nodes =>
          match computeDist g sorted_nodes (fun _ => 0) with
          | Except.error e => Except.error e
          | Except.ok dist =>
            match reconLoop g dist (g.len + 2) "t" ["t"] with
            | Except.error e => Except.error e
            | Except.ok path => Except.ok (dist "t", path)) = _
      rw [hk]
      show (match computeDist g L (fun _ => 0) with
        | Except.error e => Except.error e
        | Except.ok dist =>
          match reconLoop g dist (g.len + 2) "t" ["t"] with
          | Except.error e => Except.error e
          | Except.ok path => Except.ok (dist "t", path)) = _
      rw [hd]
    rw [hred]
    have hcard0 : g.directmap.toFinset.card ≤ g.len + 2 + (∅ : Finset String).card := by
      have h1 := g.directmap.toFinset_card_le
      have h2 := hwf.1
      simp only [Finset.card_empty]
      omega
    by_cases ht : "t" ∈ g.directmap
    · have hr := reconLoop_unreach g hwf hacyc hunreach dist (g.len + 2) "t" ["t"] ∅
        ht (Or.inl rfl) (by simp) (by simp) hcard0
      rw [hr]
    · have hnone : alookup g.hashmap "t" = none := (wf_lookup_none hwf).mpr ht
      have hr : reconLoop g dist (g.len + 2) "t" ["t"] = Except.error unregMsg := by
        have h0 := reconLoop_succ g dist (g.len + 1) "t" ["t"]
        rw [if_neg (by decide : ¬ ("t" : String) = "s")] at h0
        rw [get_inneighbors_red_unreg hnone] at h0
        exact h0
      rw [hr]
  · exact absurd hcyc hacyc

/-- C5 witness: the theorem instantiated on cg5, whose sink t is unreachable
from s. -/
theorem claim_C5_witness : solve_max_path cg5 = Except.error unregMsg :=
  claim_C5_amended_raises cg5 (by decide) (noCycle_of_targets_not_sources (by decide))
    (fun h => absurd (edgeSeq_flat_mem (by decide) h) (by decide))

/-- C9: on every well-formed graph, the two loops of the pipeline terminate:
neither the Kahn frontier loop nor the backward reconstruction loop can run
out of its iteration bound, so the fuel-exhaustion artifact of the embedding
is unreachable and every run returns or raises after finitely many steps. -/
theorem claim_C9_termination (g : Wdgraph) (hwf : WF g) :
    kahns_algorithm g ≠ Except.error fuelMsg ∧
    solve_max_path g ≠ Except.error fuelMsg := by
  refine ⟨kahns_algorithm_ne_fuelMsg g, ?_⟩
  cases hk : kahns_algorithm g with
  | error e =>
    have hred : solve_max_path g = Except.error e := by
      show (match kahns_algorithm g with
        | Except.error e => Except.error e
        | Except.ok sorted_nodes =>
          match computeDist g sorted_nodes (fun _ => 0) with
          | Except.error e => Except.error e
          | Except.ok dist =>
            match reconLoop g dist (g.len + 2) "t" ["t"] with
            | Except.error e => Except.error e
            | Except.ok path => Except.ok (dist "t", path)) = _
      rw [hk]
    rw [hred]
    intro hcon
    injection hcon with h3
    exact kahns_algorithm_ne_fuelMsg g (by rw [hk, h3])
  | ok L =>
    have hacyc := kahns_ok_not_hasCycle hwf hk
    rcases kahns_ok_final hwf hk with ⟨-, hiff, -⟩
    have hreg : ∀ v ∈ L, v ∈ g.directmap := fun v hv => (hiff v).mp hv
    rcases computeDist_ok g hwf L (fun _ => 0) hreg with ⟨dist, hd⟩
    have hred : solve_max_path g =
        (match reconLoop g dist (g.len + 2) "t" ["t"] with
          | Except.error e => Except.error e
          | Except.ok path => Except.ok (dist "t", path)) := by
      show (match kahns_algorithm g with
        | Except.error e => Except.error e
        | Except.ok sorted_nodes =>
          match computeDist g sorted_nodes (fun _ => 0) with
          | Except.error e => Except.error e
          | Except.ok dist =>
            match reconLoop g dist (g.len + 2) "t" ["t"] with
            | Except.error e => Except.error e
            | Except.ok path => Except.ok (dist "t", path)) = _
      rw [hk]
      show (match computeDist g L (fun _ => 0) with
        | Except.error e => Except.error e
        | Except.ok dist =>
          match reconLoop g dist (g.len + 2) "t" ["t"] with
          | Except.error e => Except.error e
          | Except.ok path => Except.ok (dist "t", path)) = _
      rw [hd]
    rw [hred]
    have hcard0 : g.directmap.toFinset.card ≤ g.len + 2 + (∅ : Finset String).card := by
      have h1 := g.directmap.toFinset_card_le
      have h2 := hwf.1
      simp only [Finset.card_empty]
      omega
    by_cases ht : "t" ∈ g.directmap
    · have hne := reconLoop_ne_fuelMsg g hwf hacyc dist (g.len + 2) "t" ["t"] ∅
        ht (by simp) (by simp) hcard0
      cases hr : reconLoop g dist (g.len + 2) "t" ["t"] with
      | error e =>
        intro hcon
        have h2 : (Except.error e : Except String (ℚ × List String)) =
            Except.error fuelMsg := hcon
        injection h2 with h3
        exact hne (by rw [hr, h3])
      | ok path =>
        intro hcon
        have h2 : (Except.ok (dist "t", path) : Except String (ℚ × List String)) =
            Except.error fuelMsg := hcon
        exact Except.noConfusion h2
    · have hnone : alookup g.hashmap "t" = none := (wf_lookup_none hwf).mpr ht
      have hr : reconLoop g dist (g.len + 2) "t" ["t"] = Except.error unregMsg := by
        have h0 := reconLoop_succ g dist (g.len + 1) "t" ["t"]
        rw [if_neg (by decide : ¬ ("t" : String) = "s")] at h0
        rw [get_inneighbors_red_unreg hnone] at h0
        exact h0
      rw [hr]
      intro hcon
      have h2 : (Except.error unregMsg : Except String (ℚ × List String)) =
          Except.error fuelMsg := hcon
      injection h2 with h3
      exact absurd h3 (by decide)

/-- C9 witness: the theorem instantiated on the tie graph cg1. -/
theorem claim_C9_witness :
    kahns_algorithm cg1 ≠ Except.error fuelMsg ∧
    solve_max_path cg1 ≠ Except.error fuelMsg :=
  claim_C9_termination cg1 (by decide)

/-- C8: in the heap model, copy is a deep, independent snapshot.  Running any
sequence of mutations (set_edge, remove_edge, register_node) on the copy
leaves every observation on the original (get_edge, get_outdegree,
get_inneighbors, node count) exactly as before the copy, and running the
same kind of sequence on the original leaves every observation on the copy
exactly as right after the copy. -/
theorem claim_C8_copy_independent (h : Heap) (g : PyGraph) (ops : List HOp)
    (hgood : HGood h g) :
    ((∀ u v, hget_edge (runHOps (hcopy h g) ops).1 g u v = hget_edge h g u v) ∧
     (∀ u, hget_outdegree (runHOps (hcopy h g) ops).1 g u = hget_outdegree h g u) ∧
     (∀ u, hget_inneighbors (runHOps (hcopy h g) ops).1 g u = hget_inneighbors h g u) ∧
     hnodeCount (runHOps (hcopy h g) ops).1 g = hnodeCount h g) ∧
    ((∀ u v, hget_edge (runHOps ((hcopy h g).1, g) ops).1 (hcopy h g).2 u v =
        hget_edge (hcopy h g).1 (hcopy h g).2 u v) ∧
     (∀ u, hget_outdegree (runHOps ((hcopy h g).1, g) ops).1 (hcopy h g).2 u =
        hget_outdegree (hcopy h g).1 (hcopy h g).2 u) ∧
     (∀ u, hget_inneighbors (runHOps ((hcopy h g).1, g) ops).1 (hcopy h g).2 u =
        hget_inneighbors (hcopy h g).1 (hcopy h g).2 u) ∧
     hnodeCount (runHOps ((hcopy h g).1, g) ops).1 (hcopy h g).2 =
        hnodeCount (hcopy h g).1 (hcopy h g).2) := by
  have hgood1 : HGood (hcopy h g).1 (hcopy h g).2 := hcopy_good hgood
  constructor
  · have hfr := runHOps_frame hgood.2.2 ops (hcopy h g) hgood1
      (by show h.cells.length ≤ (h.cells ++ g.adjRefs.map (fun r => hread h r)).length
          rw [List.length_append]
          omega)
      (hcopy_refs_disjoint hgood)
    have hrows1 : ∀ r ∈ g.adjRefs,
        rowAt (runHOps (hcopy h g) ops).1.cells r = rowAt h.cells r := by
      intro r hr
      have hlt := hgood.2.2 r hr
      refine (hfr.2.2.2 r hr).trans ?_
      show rowAt (h.cells ++ g.adjRefs.map (fun r2 => hread h r2)) r = rowAt h.cells r
      exact rowAt_append_lt hlt
    exact hobs_congr hgood hrows1
  · have hgoodg1 : HGood (hcopy h g).1 g := by
      refine ⟨hgood.1, hgood.2.1, ?_⟩
      intro r hr
      have := hgood.2.2 r hr
      show r < (h.cells ++ g.adjRefs.map (fun r2 => hread h r2)).length
      rw [List.length_append]
      omega
    have hdisg : ∀ r ∈ g.adjRefs, r ∉ (hcopy h g).2.adjRefs := by
      intro r hr hmem
      exact hcopy_refs_disjoint hgood r hmem hr
    have hfr := runHOps_frame hgood1.2.2 ops ((hcopy h g).1, g) hgoodg1
      (le_refl _) hdisg
    exact hobs_congr hgood1 (hfr.2.2.2)

/-- C8 witness: on a concrete two-node heap state, overwriting the edge a->b
on the copy leaves get_edge(a, b) on the original at its old weight. -/
theorem claim_C8_witness :
    hget_edge (runHOps (hcopy ⟨[[(1, 2)], []]⟩ ⟨2, [("a", 0), ("b", 1)], ["a", "b"], [0, 1]⟩)
        [HOp.hsetOp "a" "b" 9]).1 ⟨2, [("a", 0), ("b", 1)], ["a", "b"], [0, 1]⟩ "a" "b" =
      hget_edge ⟨[[(1, 2)], []]⟩ ⟨2, [("a", 0), ("b", 1)], ["a", "b"], [0, 1]⟩ "a" "b" :=
  (claim_C8_copy_independent ⟨[[(1, 2)], []]⟩ ⟨2, [("a", 0), ("b", 1)], ["a", "b"], [0, 1]⟩
    [HOp.hsetOp "a" "b" 9] (by decide)).1.1 "a" "b"

end MP
